import Mathlib

/-!
Verification development for the periodic job dispatcher of the Nomad
scheduler (`nomad/periodic.go`: `PeriodicDispatch`, `periodicHeap`,
`periodicHeapImp`, and the derived-job ID encoding).

The Go code is shallowly embedded:
* `time.Time` values are modelled at second resolution as `Option Int`
  (`none` is Go's zero time, the "undetermined" marker; `some s` is the
  instant `s` seconds from the Unix epoch).
* Go maps become association lists, the heap array becomes a `List`.
* Loops become structurally recursive functions; the unbounded dispatch
  loop takes an explicit fuel argument and reports whether it finished
  by running out of fuel or by taking one of the `return` branches.
* `structs.Job` and the scheduling-rule resolver
  (`structs.PeriodicConfig.Next`) are not part of this repository's
  sources; they are modelled from the spec (see `Job` and
  `PeriodicConfig` below).
-/

set_option maxHeartbeats 1000000

namespace PeriodicNomad

/-- Go `time.Time` at second resolution: `none` is the zero time (the
"undetermined" marker), `some s` a concrete instant, `s` seconds since the
Unix epoch. -/
abbrev GoTime := Option Int

/-- Job identifiers are strings, modelled as lists of characters. -/
abbrev JobId := List Char

/-- Modelled from the spec: the periodic sub-configuration of
`structs.Job` (not under `src/`): an enabled flag plus the scheduling
rule.  The external scheduling-rule resolver
(`structs.PeriodicConfig.Next`) is embedded as the function `next`,
mapping a concrete reference instant to the next due instant (or the
undetermined marker). -/
structure PeriodicConfig where
  enabled : Bool
  next : Int → GoTime

/-- Modelled from the spec: the fields of `structs.Job` (not under
`src/`) that the dispatcher reads or writes.  `copyFails` models the
external deep-copy operation `Job.Copy` as fallible: `true` means the
copy raises a fault (a Go panic) when attempted. -/
structure Job where
  id : JobId
  name : JobId
  parentID : JobId
  periodic : Option PeriodicConfig
  gc : Bool
  copyFails : Bool

/-- `structs.Job.IsPeriodic`: whether the periodic sub-configuration is
non-nil. -/
def jobIsPeriodic (j : Job) : Bool :=
  j.periodic.isSome

/-- Whether the job's periodic sub-configuration is present and enabled
(`job.Periodic.Enabled` guarded by presence). -/
def jobPeriodicEnabled (j : Job) : Bool :=
  match j.periodic with
  | some pc => pc.enabled
  | none => false

/-- `job.Periodic.Next(now)`: the external resolver applied to the job's
rule.  Totalised with the zero time when the job has no periodic
configuration (the Go code would dereference nil there; the dispatcher
only applies it to tracked jobs, which are all periodic). -/
def resolveNext (j : Job) (now : Int) : GoTime :=
  match j.periodic with
  | some pc => pc.next now
  | none => none

/-- An entry of the launch-time heap: Go's `periodicJob` (the `index`
field, the array position, is implicit in the list position here). -/
structure PJob where
  job : Job
  next : GoTime

/-- Default entry used to totalise array indexing (never reached by the
in-bounds heap algorithms). -/
def pjDefault : PJob :=
  { job := { id := [], name := [], parentID := [], periodic := none,
             gc := false, copyFails := false },
    next := none }

/-- Array read `h[i]`, totalised with `pjDefault` out of bounds. -/
def gAt (l : List PJob) (i : Nat) : PJob :=
  (l[i]?).getD pjDefault

/-- `periodicHeapImp.Less` from the source: two zero times are not
ordered, a zero time is greater than any concrete time, and concrete
times compare by `Before`. -/
def less (a b : PJob) : Bool :=
  match a.next, b.next with
  | none, none => false
  | none, some _ => false
  | some _, none => true
  | some x, some y => decide (x < y)

/-- Rank of a heap entry in `WithTop Int`: the zero time sits above every
concrete instant.  `less` is exactly the strict order of ranks. -/
def rnk (e : PJob) : WithTop Int :=
  match e.next with
  | none => ⊤
  | some v => (v : WithTop Int)

theorem less_iff_rnk (a b : PJob) : less a b = true ↔ rnk a < rnk b := by
  cases ha : a.next <;> cases hb : b.next <;>
    simp [less, rnk, ha, hb, WithTop.coe_lt_top, WithTop.coe_lt_coe]

theorem not_less_iff_rnk (a b : PJob) : less a b = false ↔ rnk b ≤ rnk a := by
  rw [← Bool.not_eq_true, less_iff_rnk, not_lt]

/-- `periodicHeapImp.Swap i j`, totalised as a no-op when either index is
out of bounds (the heap algorithms only swap in bounds). -/
def lswap (l : List PJob) (i j : Nat) : List PJob :=
  match l[i]?, l[j]? with
  | some a, some b => (l.set i b).set j a
  | _, _ => l

theorem lswap_length (l : List PJob) (i j : Nat) :
    (lswap l i j).length = l.length := by
  unfold lswap
  cases l[i]? <;> cases l[j]? <;> simp

theorem gAt_lswap_fst (l : List PJob) {i j : Nat}
    (hi : i < l.length) (hj : j < l.length) :
    gAt (lswap l i j) i = if i = j then gAt l i else gAt l j := by
  unfold lswap gAt
  rw [List.getElem?_eq_getElem hi, List.getElem?_eq_getElem hj]
  by_cases h : i = j
  · subst h
    simp [List.getElem?_set, hi]
  · simp only [List.getElem?_set, if_neg (Ne.symm h), hi, if_pos rfl,
      if_true, Option.getD_some, if_neg h, List.getElem?_eq_getElem hj]

theorem gAt_lswap_snd (l : List PJob) {i j : Nat}
    (hi : i < l.length) (hj : j < l.length) :
    gAt (lswap l i j) j = gAt l i := by
  unfold lswap gAt
  rw [List.getElem?_eq_getElem hi, List.getElem?_eq_getElem hj]
  simp [List.getElem?_set, hj]

theorem gAt_lswap_other (l : List PJob) {i j k : Nat}
    (hki : k ≠ i) (hkj : k ≠ j) :
    gAt (lswap l i j) k = gAt l k := by
  unfold lswap gAt
  cases hi : l[i]? <;> cases hj : l[j]? <;> simp
  simp [List.getElem?_set, Ne.symm hki, Ne.symm hkj]

/-- `h.Less i j` on the array. -/
def lessAt (l : List PJob) (i j : Nat) : Bool :=
  less (gAt l i) (gAt l j)

/-- Go `container/heap.up`, with explicit fuel (the loop strictly
decreases `j`, so any fuel at least `j` computes the loop exactly). -/
def upA : Nat → List PJob → Nat → List PJob
  | 0, l, _ => l
  | fuel+1, l, j =>
    if j = 0 then l
    else
      let i := (j-1)/2
      if lessAt l j i then upA fuel (lswap l i j) i else l

/-- Go `container/heap.up j` (fuel `j` always suffices). -/
def upHeap (l : List PJob) (j : Nat) : List PJob :=
  upA j l j

/-- Go `container/heap.down`, with explicit fuel; returns the final
position of the sifted element (Go returns `i > i0` instead). -/
def downA : Nat → List PJob → Nat → Nat → List PJob × Nat
  | 0, l, i, _ => (l, i)
  | fuel+1, l, i, n =>
    if 2*i+1 < n then
      let j := if 2*i+2 < n ∧ lessAt l (2*i+2) (2*i+1) then 2*i+2 else 2*i+1
      if lessAt l j i then downA fuel (lswap l i j) j n else (l, i)
    else (l, i)

/-- Go `container/heap.down i n` (fuel `n` always suffices, since the
position strictly increases and stays below `n`). -/
def downHeap (l : List PJob) (i n : Nat) : List PJob × Nat :=
  downA n l i n

/-- Go `container/heap.Fix i`: sift down, and sift up when the element
did not move down. -/
def heapFix (l : List PJob) (i : Nat) : List PJob :=
  let r := downHeap l i l.length
  if i < r.2 then r.1 else upHeap r.1 i

/-- Go `container/heap.Push`: append then sift up from the last slot. -/
def heapPushArr (l : List PJob) (e : PJob) : List PJob :=
  upHeap (l ++ [e]) l.length

/-- Go `container/heap.Remove i`: swap with the last slot, restore heap
order below the shortened bound, then pop the last slot. -/
def heapRemoveAt (l : List PJob) (i : Nat) : List PJob :=
  let n := l.length - 1
  if n ≠ i then
    let l1 := lswap l i n
    let r := downA n l1 i n
    let l2 := if i < r.2 then r.1 else upHeap r.1 i
    l2.dropLast
  else
    l.dropLast

/-- Lookup in the `periodicHeap.index` map: the position of the entry
with the given job ID (entry positions and the map are kept in lockstep
by `Swap` in the source; here the position is recomputed). -/
def hFind : List PJob → JobId → Option Nat
  | [], _ => none
  | e :: es, id => if e.job.id = id then some 0 else (hFind es id).map (· + 1)

/-- `periodicHeap.Push`: fails when the job ID is already present. -/
def heapPushOp (l : List PJob) (job : Job) (next : GoTime) :
    Option (List PJob) :=
  match hFind l job.id with
  | some _ => none
  | none => some (heapPushArr l ⟨job, next⟩)

/-- `periodicHeap.Update`: replaces the entry's job and next instant in
place and re-heapifies; fails when the ID is absent. -/
def heapUpdateOp (l : List PJob) (job : Job) (next : GoTime) :
    Option (List PJob) :=
  match hFind l job.id with
  | some i => some (heapFix (l.set i ⟨job, next⟩) i)
  | none => none

/-- `periodicHeap.Remove`: removes the entry with the job's ID; fails
when the ID is absent. -/
def heapRemoveOp (l : List PJob) (job : Job) : Option (List PJob) :=
  match hFind l job.id with
  | some i => some (heapRemoveAt l i)
  | none => none

/-- `periodicHeap.Peek`: the root of the heap, failing on an empty
heap. -/
def heapPeekOp (l : List PJob) : Option PJob :=
  if l.length = 0 then none else some (gAt l 0)

theorem cons_set_perm (xs : List PJob) (x : PJob) :
    ∀ k, k < xs.length → (gAt xs k :: xs.set k x).Perm (x :: xs) := by
  induction xs with
  | nil => intro k hk; cases hk
  | cons y ys ih =>
    intro k hk
    cases k with
    | zero =>
      have h0 : (gAt (y :: ys) 0 :: (y :: ys).set 0 x) = y :: x :: ys := by
        simp [gAt]
      rw [h0]
      exact List.Perm.swap x y ys
    | succ m =>
      have hm : m < ys.length := Nat.lt_of_succ_lt_succ hk
      have h1 : (gAt (y :: ys) (m+1) :: (y :: ys).set (m+1) x) =
          gAt ys m :: y :: ys.set m x := by
        simp [gAt]
      rw [h1]
      have p1 : (gAt ys m :: y :: ys.set m x).Perm
          (y :: gAt ys m :: ys.set m x) := List.Perm.swap y (gAt ys m) _
      have p2 : (y :: gAt ys m :: ys.set m x).Perm (y :: x :: ys) :=
        (ih m hm).cons y
      have p3 : (y :: x :: ys).Perm (x :: y :: ys) := List.Perm.swap x y ys
      exact p1.trans (p2.trans p3)

theorem swap_perm_lt :
    ∀ (l : List PJob) (i j : Nat), i < j → j < l.length →
      ((l.set i (gAt l j)).set j (gAt l i)).Perm l := by
  intro l
  induction l with
  | nil => intro i j _ hj; cases hj
  | cons x xs ih =>
    intro i j hij hj
    cases i with
    | zero =>
      cases j with
      | zero => cases hij
      | succ k =>
        have hk : k < xs.length := Nat.lt_of_succ_lt_succ hj
        have h1 : ((x :: xs).set 0 (gAt (x :: xs) (k+1))).set (k+1)
            (gAt (x :: xs) 0) = gAt xs k :: xs.set k x := by
          simp [gAt]
        rw [h1]
        exact cons_set_perm xs x k hk
    | succ m =>
      cases j with
      | zero => cases hij
      | succ k =>
        have hk : k < xs.length := Nat.lt_of_succ_lt_succ hj
        have hmk : m < k := Nat.lt_of_succ_lt_succ hij
        have h1 : ((x :: xs).set (m+1) (gAt (x :: xs) (k+1))).set (k+1)
            (gAt (x :: xs) (m+1)) =
            x :: ((xs.set m (gAt xs k)).set k (gAt xs m)) := by
          simp [gAt]
        rw [h1]
        exact (ih m k hmk hk).cons x

theorem getElem?_isSome_bound {l : List PJob} {i : Nat} {a : PJob}
    (h : l[i]? = some a) : i < l.length := by
  by_contra hc
  rw [List.getElem?_eq_none (Nat.le_of_not_lt hc)] at h
  cases h

theorem set_getElem_id {α : Type} (l : List α) (i : Nat) (h : i < l.length) :
    l.set i l[i] = l := by
  apply List.ext_getElem?
  intro n
  rw [List.getElem?_set]
  split
  · rename_i he
    subst he
    simp [h, List.getElem?_eq_getElem h]
  · rfl

theorem lswap_perm (l : List PJob) (i j : Nat) : (lswap l i j).Perm l := by
  rcases Nat.lt_trichotomy i j with hij | hij | hij
  · unfold lswap
    cases hi : l[i]? with
    | none => exact List.Perm.refl l
    | some a =>
      cases hj : l[j]? with
      | none => exact List.Perm.refl l
      | some b =>
        have hjl : j < l.length := getElem?_isSome_bound hj
        have hb : b = gAt l j := by simp [gAt, hj]
        have ha : a = gAt l i := by simp [gAt, hi]
        subst ha hb
        show ((l.set i (gAt l j)).set j (gAt l i)).Perm l
        exact swap_perm_lt l i j hij hjl
  · subst hij
    unfold lswap
    cases hi : l[i]? with
    | none => exact List.Perm.refl l
    | some a =>
      have hil : i < l.length := getElem?_isSome_bound hi
      have ha : a = l[i] := by
        rw [List.getElem?_eq_getElem hil] at hi
        exact (Option.some.injEq _ _).mp hi.symm
      show ((l.set i a).set i a).Perm l
      rw [List.set_set, ha, set_getElem_id l i hil]
  · unfold lswap
    cases hi : l[i]? with
    | none =>
      cases l[j]? <;> exact List.Perm.refl l
    | some a =>
      cases hj : l[j]? with
      | none => exact List.Perm.refl l
      | some b =>
        have hil : i < l.length := getElem?_isSome_bound hi
        have hb : b = gAt l j := by simp [gAt, hj]
        have ha : a = gAt l i := by simp [gAt, hi]
        subst ha hb
        show ((l.set i (gAt l j)).set j (gAt l i)).Perm l
        rw [List.set_comm _ _ _ (Nat.ne_of_gt hij)]
        exact swap_perm_lt l j i hij hil

theorem upA_perm (fuel : Nat) :
    ∀ (l : List PJob) (j : Nat), (upA fuel l j).Perm l := by
  induction fuel with
  | zero => intro l j; exact List.Perm.refl l
  | succ fuel ih =>
    intro l j
    unfold upA
    by_cases h0 : j = 0
    · simp [h0]
    · simp only [if_neg h0]
      by_cases hl : lessAt l j ((j-1)/2)
      · simp only [hl, if_true]
        exact (ih _ _).trans (lswap_perm l _ j)
      · simp [hl]

theorem upA_length (fuel : Nat) (l : List PJob) (j : Nat) :
    (upA fuel l j).length = l.length :=
  (upA_perm fuel l j).length_eq

theorem upA_frame (fuel : Nat) :
    ∀ (l : List PJob) (j k : Nat), j < k → gAt (upA fuel l j) k = gAt l k := by
  induction fuel with
  | zero => intro l j k _; rfl
  | succ fuel ih =>
    intro l j k hjk
    unfold upA
    by_cases h0 : j = 0
    · simp [h0]
    · simp only [if_neg h0]
      by_cases hl : lessAt l j ((j-1)/2)
      · simp only [hl, if_true]
        have hik : (j-1)/2 < k := Nat.lt_of_le_of_lt (by omega) hjk
        rw [ih _ _ _ hik]
        exact gAt_lswap_other l (Nat.ne_of_gt hik) (Nat.ne_of_gt hjk)
      · simp [hl]

theorem downA_perm (fuel : Nat) :
    ∀ (l : List PJob) (i n : Nat), ((downA fuel l i n).1).Perm l := by
  induction fuel with
  | zero => intro l i n; exact List.Perm.refl l
  | succ fuel ih =>
    intro l i n
    unfold downA
    by_cases h1 : 2*i+1 < n
    · simp only [if_pos h1]
      set j := if 2*i+2 < n ∧ lessAt l (2*i+2) (2*i+1) then 2*i+2 else 2*i+1
      by_cases hl : lessAt l j i
      · simp only [hl, if_true]
        exact (ih _ _ _).trans (lswap_perm l i j)
      · simp [hl]
    · simp [h1]

theorem downA_length (fuel : Nat) (l : List PJob) (i n : Nat) :
    ((downA fuel l i n).1).length = l.length :=
  (downA_perm fuel l i n).length_eq

theorem downA_pos_le (fuel : Nat) :
    ∀ (l : List PJob) (i n : Nat), i ≤ (downA fuel l i n).2 := by
  induction fuel with
  | zero => intro l i n; exact Nat.le_refl i
  | succ fuel ih =>
    intro l i n
    unfold downA
    by_cases h1 : 2*i+1 < n
    · simp only [if_pos h1]
      set j := if 2*i+2 < n ∧ lessAt l (2*i+2) (2*i+1) then 2*i+2 else 2*i+1
        with hj
      have hij : i < j := by
        by_cases hc : 2*i+2 < n ∧ lessAt l (2*i+2) (2*i+1)
        · rw [hj, if_pos hc]; omega
        · rw [hj, if_neg hc]; omega
      by_cases hl : lessAt l j i
      · simp only [hl, if_true]
        exact Nat.le_of_lt (Nat.lt_of_lt_of_le hij (ih _ _ _))
      · simp [hl]
    · simp [h1]

theorem downA_pos_lt (fuel : Nat) :
    ∀ (l : List PJob) (i n : Nat), i < n → (downA fuel l i n).2 < n := by
  induction fuel with
  | zero => intro l i n h; exact h
  | succ fuel ih =>
    intro l i n hin
    unfold downA
    by_cases h1 : 2*i+1 < n
    · simp only [if_pos h1]
      set j := if 2*i+2 < n ∧ lessAt l (2*i+2) (2*i+1) then 2*i+2 else 2*i+1
        with hj
      have hjn : j < n := by
        by_cases hc : 2*i+2 < n ∧ lessAt l (2*i+2) (2*i+1)
        · rw [hj, if_pos hc]; exact hc.1
        · rw [hj, if_neg hc]; exact h1
      by_cases hl : lessAt l j i
      · simp only [hl, if_true]
        exact ih _ _ _ hjn
      · simpa [hl] using hin
    · simpa [h1] using hin

/-- Binary-heap child relation on array positions. -/
def childR (p c : Nat) : Prop :=
  c = 2*p+1 ∨ c = 2*p+2

theorem childR_pos {p c : Nat} (h : childR p c) : 0 < c ∧ p = (c-1)/2 := by
  unfold childR at h
  omega

theorem parent_childR {c : Nat} (h : 0 < c) : childR ((c-1)/2) c := by
  unfold childR
  omega

theorem childR_lt {p c : Nat} (h : childR p c) : p < c := by
  unfold childR at h
  omega

/-- The heap-order invariant on the first `n` slots: every entry is
ranked at or below its children (`Less`-minimality at the root). -/
def ValidN (l : List PJob) (n : Nat) : Prop :=
  ∀ c, c < n → 0 < c → rnk (gAt l ((c-1)/2)) ≤ rnk (gAt l c)

instance validN_dec (l : List PJob) (n : Nat) : Decidable (ValidN l n) := by
  unfold ValidN
  infer_instance

theorem validN_edge {l : List PJob} {n : Nat} (h : ValidN l n) {p c : Nat}
    (hpc : childR p c) (hc : c < n) : rnk (gAt l p) ≤ rnk (gAt l c) := by
  obtain ⟨h0, hp⟩ := childR_pos hpc
  rw [hp]
  exact h c hc h0

/-- All heap edges hold except possibly those touching slot `i`. -/
def EdgesExcept (l : List PJob) (n i : Nat) : Prop :=
  ∀ p c, childR p c → c < n → p ≠ i → c ≠ i → rnk (gAt l p) ≤ rnk (gAt l c)

/-- The grandparent condition across the hole at slot `i`. -/
def GrandOk (l : List PJob) (n i : Nat) : Prop :=
  ∀ p c, childR p i → childR i c → c < n → rnk (gAt l p) ≤ rnk (gAt l c)

/-- All heap edges hold except possibly the parent edge into slot `j`. -/
def UpEdges (l : List PJob) (n j : Nat) : Prop :=
  ∀ p c, childR p c → c < n → c ≠ j → rnk (gAt l p) ≤ rnk (gAt l c)

theorem upEdges_validN {l : List PJob} {n j : Nat} (hU : UpEdges l n j)
    (hpar : ∀ p, childR p j → rnk (gAt l p) ≤ rnk (gAt l j)) :
    ValidN l n := by
  intro c hc h0
  by_cases hcj : c = j
  · subst hcj
    exact hpar _ (parent_childR h0)
  · exact hU _ _ (parent_childR h0) hc hcj

theorem validN_upEdges {l : List PJob} {n : Nat} (h : ValidN l n) (j : Nat) :
    UpEdges l n j :=
  fun _ _ hpc hc _ => validN_edge h hpc hc

theorem validN_grandOk {l : List PJob} {n i : Nat} (h : ValidN l n)
    (hin : i < n) : GrandOk l n i :=
  fun _ _ hpi hic hc =>
    le_trans (validN_edge h hpi hin) (validN_edge h hic hc)

theorem validN_min {l : List PJob} {n : Nat} (h : ValidN l n) :
    ∀ k, k < n → rnk (gAt l 0) ≤ rnk (gAt l k) := by
  intro k
  induction k using Nat.strong_induction_on with
  | _ k ih =>
    intro hk
    cases Nat.eq_zero_or_pos k with
    | inl h0 => rw [h0]
    | inr h0 =>
      have hp : (k-1)/2 < k := by omega
      exact le_trans (ih _ hp (Nat.lt_trans hp hk)) (h k hk h0)

theorem upA_spec :
    ∀ (fuel : Nat) (l : List PJob) (j n : Nat), j ≤ fuel → j < n →
      n ≤ l.length → UpEdges l n j → GrandOk l n j →
      ValidN (upA fuel l j) n := by
  intro fuel
  induction fuel with
  | zero =>
    intro l j n hfuel hjn hnl hU hG
    have hj0 : j = 0 := Nat.le_zero.mp hfuel
    subst hj0
    refine upEdges_validN hU ?_
    intro p hp
    exact absurd (childR_pos hp).1 (by omega)
  | succ fuel ih =>
    intro l j n hfuel hjn hnl hU hG
    unfold upA
    by_cases h0 : j = 0
    · subst h0
      simp only [if_pos rfl]
      refine upEdges_validN hU ?_
      intro p hp
      exact absurd (childR_pos hp).1 (by omega)
    · simp only [if_neg h0]
      have hpos : 0 < j := Nat.pos_of_ne_zero h0
      have hij : childR ((j-1)/2) j := parent_childR hpos
      have hilt : (j-1)/2 < j := childR_lt hij
      by_cases hl : lessAt l j ((j-1)/2)
      · simp only [hl, if_true]
        set i := (j-1)/2 with hidef
        have hlt : rnk (gAt l j) < rnk (gAt l i) := (less_iff_rnk _ _).mp hl
        have hiln : i < l.length := by omega
        have hjln : j < l.length := by omega
        have hne : i ≠ j := Nat.ne_of_lt hilt
        have g2i : gAt (lswap l i j) i = gAt l j := by
          rw [gAt_lswap_fst l hiln hjln, if_neg hne]
        have g2j : gAt (lswap l i j) j = gAt l i := gAt_lswap_snd l hiln hjln
        have g2o : ∀ k, k ≠ i → k ≠ j → gAt (lswap l i j) k = gAt l k :=
          fun k hki hkj => gAt_lswap_other l hki hkj
        refine ih (lswap l i j) i n (by omega) (by omega)
          (by rw [lswap_length]; exact hnl) ?_ ?_
        · intro p c hpc hcn hci
          by_cases hcj : c = j
          · subst hcj
            have hpi : p = i := by
              rw [hidef]
              exact (childR_pos hpc).2
            subst hpi
            rw [g2i, g2j]
            exact hlt.le
          · by_cases hpi : p = i
            · subst hpi
              rw [g2i, g2o c hci hcj]
              exact le_trans hlt.le (hU _ _ hpc hcn hcj)
            · by_cases hpj : p = j
              · subst hpj
                rw [g2j, g2o c hci hcj]
                exact hG _ _ hij hpc hcn
              · rw [g2o p hpi hpj, g2o c hci hcj]
                exact hU _ _ hpc hcn hcj
        · intro p c hpi hic hcn
          have hpltI : p < i := childR_lt hpi
          have hiltC : i < c := childR_lt hic
          have hpne : p ≠ i := Nat.ne_of_lt hpltI
          have hpnej : p ≠ j := by omega
          rw [g2o p hpne hpnej]
          by_cases hcj : c = j
          · subst hcj
            rw [g2j]
            exact hU _ _ hpi (by omega) hne
          · rw [g2o c (by omega) hcj]
            exact le_trans (hU _ _ hpi (by omega) hne) (hU _ _ hic hcn hcj)
      · simp only [hl, if_false]
        refine upEdges_validN hU ?_
        intro p hp
        have hpi : p = (j-1)/2 := (childR_pos hp).2
        subst hpi
        exact (not_less_iff_rnk _ _).mp (Bool.not_eq_true _ ▸ hl)

theorem downA_frame (fuel : Nat) :
    ∀ (l : List PJob) (i n k : Nat), n ≤ k →
      gAt ((downA fuel l i n).1) k = gAt l k := by
  induction fuel with
  | zero => intro l i n k _; rfl
  | succ fuel ih =>
    intro l i n k hnk
    unfold downA
    by_cases h1 : 2*i+1 < n
    · simp only [if_pos h1]
      set j := if 2*i+2 < n ∧ lessAt l (2*i+2) (2*i+1) then 2*i+2 else 2*i+1
        with hj
      have hjn : j < n := by
        by_cases hc : 2*i+2 < n ∧ lessAt l (2*i+2) (2*i+1)
        · rw [hj, if_pos hc]; exact hc.1
        · rw [hj, if_neg hc]; exact h1
      by_cases hl : lessAt l j i
      · simp only [hl, if_true]
        rw [ih _ _ _ _ hnk]
        exact gAt_lswap_other l (by omega) (by omega)
      · simp [hl]
    · simp [h1]

theorem downA_spec :
    ∀ (fuel : Nat) (l : List PJob) (i n : Nat), n - i ≤ fuel → i < n →
      n ≤ l.length → EdgesExcept l n i → GrandOk l n i →
      ((downA fuel l i n).2 = i → (downA fuel l i n).1 = l) ∧
      UpEdges (downA fuel l i n).1 n (downA fuel l i n).2 ∧
      GrandOk (downA fuel l i n).1 n (downA fuel l i n).2 ∧
      (i < (downA fuel l i n).2 →
        rnk (gAt (downA fuel l i n).1 (((downA fuel l i n).2 - 1)/2)) ≤
          rnk (gAt (downA fuel l i n).1 (downA fuel l i n).2)) := by
  intro fuel
  induction fuel with
  | zero =>
    intro l i n hfuel hin _ _ _
    omega
  | succ fuel ih =>
    intro l i n hfuel hin hnl hA hG
    unfold downA
    by_cases h1 : 2*i+1 < n
    · simp only [if_pos h1]
      set j := if 2*i+2 < n ∧ lessAt l (2*i+2) (2*i+1) then 2*i+2 else 2*i+1
        with hj
      have hjn : j < n := by
        by_cases hc : 2*i+2 < n ∧ lessAt l (2*i+2) (2*i+1)
        · rw [hj, if_pos hc]; exact hc.1
        · rw [hj, if_neg hc]; exact h1
      have hijc : childR i j := by
        by_cases hc : 2*i+2 < n ∧ lessAt l (2*i+2) (2*i+1)
        · rw [hj, if_pos hc]; exact Or.inr rfl
        · rw [hj, if_neg hc]; exact Or.inl rfl
      have hij : i < j := childR_lt hijc
      have hmin : ∀ c, childR i c → c < n → rnk (gAt l j) ≤ rnk (gAt l c) := by
        intro c hic hcn
        by_cases hc : 2*i+2 < n ∧ lessAt l (2*i+2) (2*i+1)
        · have hjv : j = 2*i+2 := by rw [hj, if_pos hc]
          have hlt2 : rnk (gAt l (2*i+2)) < rnk (gAt l (2*i+1)) :=
            (less_iff_rnk _ _).mp hc.2
          rcases hic with hcv | hcv
          · rw [hjv, hcv]; exact hlt2.le
          · rw [hjv, hcv]
        · have hjv : j = 2*i+1 := by rw [hj, if_neg hc]
          rcases hic with hcv | hcv
          · rw [hjv, hcv]
          · have h2n : 2*i+2 < n := by omega
            have hle : lessAt l (2*i+2) (2*i+1) = false := by
              rcases Bool.eq_false_or_eq_true (lessAt l (2*i+2) (2*i+1)) with
                hb | hb
              · exact absurd ⟨h2n, hb⟩ hc
              · exact hb
            have := (not_less_iff_rnk _ _).mp hle
            rw [hjv, hcv]
            exact this
      by_cases hl : lessAt l j i
      · simp only [hl, if_true]
        have hlt : rnk (gAt l j) < rnk (gAt l i) := (less_iff_rnk _ _).mp hl
        have hiln : i < l.length := by omega
        have hjln : j < l.length := by omega
        have hne : i ≠ j := Nat.ne_of_lt hij
        have g2i : gAt (lswap l i j) i = gAt l j := by
          rw [gAt_lswap_fst l hiln hjln, if_neg hne]
        have g2j : gAt (lswap l i j) j = gAt l i := gAt_lswap_snd l hiln hjln
        have g2o : ∀ k, k ≠ i → k ≠ j → gAt (lswap l i j) k = gAt l k :=
          fun k hki hkj => gAt_lswap_other l hki hkj
        have hA2 : EdgesExcept (lswap l i j) n j := by
          intro p c hpc hcn hpj hcj
          by_cases hci : c = i
          · have hpi_lt : p < i := hci ▸ childR_lt hpc
            rw [hci, g2o p (Nat.ne_of_lt hpi_lt) hpj, g2i]
            exact hG p j (hci ▸ hpc) hijc hjn
          · by_cases hpi : p = i
            · rw [hpi, g2i, g2o c hci hcj]
              exact hmin c (hpi ▸ hpc) hcn
            · rw [g2o p hpi hpj, g2o c hci hcj]
              exact hA p c hpc hcn hpi hci
        have hG2 : GrandOk (lswap l i j) n j := by
          intro p c hpj hjc hcn
          have hpeq : p = i := by
            have h2 := (childR_pos hpj).2
            have h3 := (childR_pos hijc).2
            omega
          have hcj : c ≠ j := Nat.ne_of_gt (childR_lt hjc)
          have hci : c ≠ i := by
            have := childR_lt hjc
            omega
          rw [hpeq, g2i, g2o c hci hcj]
          exact hA j c hjc hcn (Ne.symm hne) hci
        have hres := ih (lswap l i j) j n (by omega) hjn
          (by rw [lswap_length]; exact hnl) hA2 hG2
        refine ⟨?_, hres.2.1, hres.2.2.1, ?_⟩
        · intro hpos
          exfalso
          have := downA_pos_le fuel (lswap l i j) j n
          omega
        · intro _
          by_cases hrj : (downA fuel (lswap l i j) j n).2 = j
          · have hunch := hres.1 hrj
            rw [hrj, hunch]
            have hpj : (j-1)/2 = i := by
              have := (childR_pos hijc).2
              omega
            rw [hpj, g2i, g2j]
            exact hlt.le
          · have hge := downA_pos_le fuel (lswap l i j) j n
            exact hres.2.2.2 (by omega)
      · rw [if_neg hl]
        refine ⟨fun _ => rfl, ?_, hG, fun h => absurd h (by omega)⟩
        intro p c hpc hcn hci
        by_cases hpi : p = i
        · have hle1 : rnk (gAt l i) ≤ rnk (gAt l j) :=
            (not_less_iff_rnk _ _).mp (Bool.not_eq_true _ ▸ hl)
          rw [hpi]
          exact le_trans hle1 (hmin c (hpi ▸ hpc) hcn)
        · exact hA p c hpc hcn hpi hci
    · rw [if_neg h1]
      refine ⟨fun _ => rfl, ?_, hG, fun h => absurd h (by omega)⟩
      intro p c hpc hcn hci
      by_cases hpi : p = i
      · exfalso
        rw [hpi] at hpc
        rcases hpc with h | h <;> omega
      · exact hA p c hpc hcn hpi hci

theorem gAt_set_self {l : List PJob} {i : Nat} (hi : i < l.length)
    (v : PJob) : gAt (l.set i v) i = v := by
  simp [gAt, List.getElem?_set, hi]

theorem gAt_set_ne (l : List PJob) {i k : Nat} (h : k ≠ i) (v : PJob) :
    gAt (l.set i v) k = gAt l k := by
  simp [gAt, List.getElem?_set, Ne.symm h]

theorem gAt_append_lt {l : List PJob} (t : List PJob) {k : Nat}
    (h : k < l.length) : gAt (l ++ t) k = gAt l k := by
  simp [gAt, List.getElem?_append, h]

theorem gAt_append_self (l : List PJob) (e : PJob) :
    gAt (l ++ [e]) l.length = e := by
  simp [gAt, List.getElem?_concat_length]

theorem gAt_dropLast {l : List PJob} {k : Nat} (h : k < l.length - 1) :
    gAt l.dropLast k = gAt l k := by
  simp only [gAt, List.getElem?_dropLast, if_pos h]

/-- The heap-order invariant over the whole array. -/
def HeapValid (l : List PJob) : Prop :=
  ValidN l l.length

theorem validN_dropLast {l : List PJob} {n : Nat} (h : ValidN l n)
    (hn : n = l.length - 1) : ValidN l.dropLast n := by
  intro c hc h0
  have hcn : c < l.length - 1 := by omega
  have hpn : (c-1)/2 < l.length - 1 := by omega
  rw [gAt_dropLast hpn, gAt_dropLast hcn]
  exact h c hc h0

theorem validN_mono {l : List PJob} {n m : Nat} (h : ValidN l n)
    (hmn : m ≤ n) : ValidN l m :=
  fun c hc h0 => h c (Nat.lt_of_lt_of_le hc hmn) h0

theorem gAt_eq_getElem {l : List PJob} {i : Nat} (h : i < l.length) :
    gAt l i = l[i] := by
  simp [gAt, List.getElem?_eq_getElem h]

theorem heapFix_length (l : List PJob) (i : Nat) :
    (heapFix l i).length = l.length := by
  unfold heapFix downHeap
  by_cases h : i < (downA l.length l i l.length).2
  · rw [if_pos h]
    exact downA_length _ _ _ _
  · rw [if_neg h]
    unfold upHeap
    rw [upA_length, downA_length]

theorem heapFix_perm (l : List PJob) (i : Nat) : (heapFix l i).Perm l := by
  unfold heapFix downHeap
  by_cases h : i < (downA l.length l i l.length).2
  · rw [if_pos h]
    exact downA_perm _ _ _ _
  · rw [if_neg h]
    exact (upA_perm _ _ _).trans (downA_perm _ _ _ _)

theorem heapFix_validN {l : List PJob} (hval : HeapValid l) {i : Nat}
    (hi : i < l.length) (v : PJob) :
    ValidN (heapFix (l.set i v) i) l.length := by
  have hlen : (l.set i v).length = l.length := List.length_set l i v
  have hA : EdgesExcept (l.set i v) l.length i := by
    intro p c hpc hcn hpi hci
    rw [gAt_set_ne l hpi v, gAt_set_ne l hci v]
    exact validN_edge hval hpc hcn
  have hG : GrandOk (l.set i v) l.length i := by
    intro p c hpi2 hic hcn
    rw [gAt_set_ne l (Nat.ne_of_lt (childR_lt hpi2)) v,
      gAt_set_ne l (Nat.ne_of_gt (childR_lt hic)) v]
    exact le_trans (validN_edge hval hpi2 hi) (validN_edge hval hic hcn)
  have hres := downA_spec l.length (l.set i v) i l.length
    (by omega) (by omega) (by omega) hA hG
  unfold heapFix downHeap
  rw [hlen]
  by_cases hmv : i < (downA l.length (l.set i v) i l.length).2
  · rw [if_pos hmv]
    refine upEdges_validN hres.2.1 ?_
    intro p hp
    have hp2 := (childR_pos hp).2
    rw [hp2]
    exact hres.2.2.2 hmv
  · rw [if_neg hmv]
    have hle := downA_pos_le l.length (l.set i v) i l.length
    have hri : (downA l.length (l.set i v) i l.length).2 = i := by
      omega
    unfold upHeap
    refine upA_spec i _ i l.length (Nat.le_refl i) hi ?_ ?_ ?_
    · rw [downA_length, hlen]
    · have := hres.2.1
      rw [hri] at this
      exact this
    · have := hres.2.2.1
      rw [hri] at this
      exact this

theorem heapPushArr_length (l : List PJob) (e : PJob) :
    (heapPushArr l e).length = l.length + 1 := by
  unfold heapPushArr upHeap
  rw [upA_length, List.length_append, List.length_singleton]

theorem heapPushArr_perm (l : List PJob) (e : PJob) :
    (heapPushArr l e).Perm (l ++ [e]) :=
  upA_perm _ _ _

theorem heapPushArr_validN {l : List PJob} (h : HeapValid l) (e : PJob) :
    HeapValid (heapPushArr l e) := by
  have hlen : (heapPushArr l e).length = l.length + 1 :=
    heapPushArr_length l e
  rw [HeapValid, hlen]
  unfold heapPushArr upHeap
  refine upA_spec l.length (l ++ [e]) l.length (l.length + 1) (Nat.le_refl _)
    (by omega) (by rw [List.length_append, List.length_singleton]) ?_ ?_
  · intro p c hpc hcn hcl
    have hc : c < l.length := by
      omega
    have hp : p < l.length := Nat.lt_trans (childR_lt hpc) hc
    rw [gAt_append_lt [e] hp, gAt_append_lt [e] hc]
    exact validN_edge h hpc hc
  · intro p c hpl hlc hcn
    exfalso
    have := childR_lt hlc
    have h2 : c ≥ 2 * l.length + 1 := by
      rcases hlc with hv | hv <;> omega
    omega

theorem heapRemoveAt_length (l : List PJob) (i : Nat) :
    (heapRemoveAt l i).length = l.length - 1 := by
  simp only [heapRemoveAt]
  by_cases h : l.length - 1 ≠ i
  · rw [if_pos h]
    by_cases hmv : i < (downA (l.length - 1) (lswap l i (l.length - 1)) i
        (l.length - 1)).2
    · rw [if_pos hmv, List.length_dropLast, downA_length, lswap_length]
    · rw [if_neg hmv, List.length_dropLast]
      unfold upHeap
      rw [upA_length, downA_length, lswap_length]
  · rw [if_neg h, List.length_dropLast]

theorem heapRemoveAt_validN {l : List PJob} (h : HeapValid l) {i : Nat}
    (hi : i < l.length) : HeapValid (heapRemoveAt l i) := by
  rw [HeapValid, heapRemoveAt_length]
  simp only [heapRemoveAt]
  by_cases hni : l.length - 1 ≠ i
  · rw [if_pos hni]
    have hin : i < l.length - 1 := by omega
    have hA : EdgesExcept (lswap l i (l.length - 1)) (l.length - 1) i := by
      intro p c hpc hcn hpi hci
      have hp : p < c := childR_lt hpc
      rw [gAt_lswap_other l hpi (by omega), gAt_lswap_other l hci (by omega)]
      exact validN_edge h hpc (by omega)
    have hG : GrandOk (lswap l i (l.length - 1)) (l.length - 1) i := by
      intro p c hpi2 hic hcn
      have hp : p < i := childR_lt hpi2
      have hc : i < c := childR_lt hic
      rw [gAt_lswap_other l (by omega) (by omega),
        gAt_lswap_other l (by omega) (by omega)]
      exact le_trans (validN_edge h hpi2 (by omega))
        (validN_edge h hic (by omega))
    have hres := downA_spec (l.length - 1) (lswap l i (l.length - 1)) i
      (l.length - 1) (by omega) hin (by rw [lswap_length]; omega) hA hG
    by_cases hmv : i < (downA (l.length - 1) (lswap l i (l.length - 1)) i
        (l.length - 1)).2
    · rw [if_pos hmv]
      have hv : ValidN (downA (l.length - 1) (lswap l i (l.length - 1)) i
          (l.length - 1)).1 (l.length - 1) := by
        refine upEdges_validN hres.2.1 ?_
        intro p hp
        rw [(childR_pos hp).2]
        exact hres.2.2.2 hmv
      exact validN_dropLast hv (by rw [downA_length, lswap_length])
    · rw [if_neg hmv]
      have hle := downA_pos_le (l.length - 1) (lswap l i (l.length - 1)) i
        (l.length - 1)
      have hri : (downA (l.length - 1) (lswap l i (l.length - 1)) i
          (l.length - 1)).2 = i := by omega
      have hv : ValidN (upHeap (downA (l.length - 1)
          (lswap l i (l.length - 1)) i (l.length - 1)).1 i) (l.length - 1) := by
        unfold upHeap
        refine upA_spec i _ i (l.length - 1) (Nat.le_refl i) hin ?_ ?_ ?_
        · rw [downA_length, lswap_length]; omega
        · have := hres.2.1
          rw [hri] at this
          exact this
        · have := hres.2.2.1
          rw [hri] at this
          exact this
      refine validN_dropLast hv ?_
      unfold upHeap
      rw [upA_length, downA_length, lswap_length]
  · rw [if_neg hni]
    exact validN_dropLast (validN_mono h (by omega)) rfl

theorem heapRemoveAt_perm {l : List PJob} {i : Nat} (hi : i < l.length) :
    (heapRemoveAt l i).Perm (l.take i ++ l.drop (i+1)) := by
  simp only [heapRemoveAt]
  by_cases hni : l.length - 1 ≠ i
  · rw [if_pos hni]
    have hin : i < l.length - 1 := by omega
    have hnl : l.length - 1 < l.length := by omega
    set l2 := if i < (downA (l.length - 1) (lswap l i (l.length - 1)) i
        (l.length - 1)).2
      then (downA (l.length - 1) (lswap l i (l.length - 1)) i
        (l.length - 1)).1
      else upHeap (downA (l.length - 1) (lswap l i (l.length - 1)) i
        (l.length - 1)).1 i with hl2def
    have hperm2 : l2.Perm l := by
      rw [hl2def]
      by_cases hmv : i < (downA (l.length - 1) (lswap l i (l.length - 1)) i
          (l.length - 1)).2
      · rw [if_pos hmv]
        exact (downA_perm _ _ _ _).trans (lswap_perm l i (l.length - 1))
      · rw [if_neg hmv]
        unfold upHeap
        exact ((upA_perm _ _ _).trans (downA_perm _ _ _ _)).trans
          (lswap_perm l i (l.length - 1))
    have hlen2 : l2.length = l.length := by
      rw [hl2def]
      by_cases hmv : i < (downA (l.length - 1) (lswap l i (l.length - 1)) i
          (l.length - 1)).2
      · rw [if_pos hmv, downA_length, lswap_length]
      · rw [if_neg hmv]
        unfold upHeap
        rw [upA_length, downA_length, lswap_length]
    have hlast : gAt l2 (l.length - 1) = gAt l i := by
      have hfr : gAt l2 (l.length - 1) =
          gAt (lswap l i (l.length - 1)) (l.length - 1) := by
        rw [hl2def]
        by_cases hmv : i < (downA (l.length - 1) (lswap l i (l.length - 1)) i
            (l.length - 1)).2
        · rw [if_pos hmv]
          exact downA_frame _ _ _ _ _ (Nat.le_refl _)
        · rw [if_neg hmv]
          unfold upHeap
          rw [upA_frame _ _ _ _ hin]
          exact downA_frame _ _ _ _ _ (Nat.le_refl _)
      rw [hfr]
      exact gAt_lswap_snd l hi hnl
    have hne2 : l2 ≠ [] := by
      intro hc
      rw [hc] at hlen2
      simp at hlen2
      omega
    have hdecomp : l2.dropLast ++ [gAt l i] = l2 := by
      have h1 := List.dropLast_append_getLast hne2
      rw [List.getLast_eq_getElem] at h1
      have h2 : l2[l2.length - 1] = gAt l i := by
        rw [← gAt_eq_getElem (by omega), hlen2, hlast]
      rw [← h2, h1]
    have hchain : (gAt l i :: l2.dropLast).Perm
        (gAt l i :: (l.take i ++ l.drop (i+1))) := by
      have p1 : (gAt l i :: l2.dropLast).Perm (l2.dropLast ++ [gAt l i]) :=
        (List.perm_append_singleton _ _).symm
      have p2 : (l2.dropLast ++ [gAt l i]).Perm l := by
        rw [hdecomp]
        exact hperm2
      have p3 : l = l.take i ++ l[i] :: l.drop (i+1) := by
        conv_lhs => rw [← List.take_append_drop i l]
        rw [List.drop_eq_getElem_cons hi]
      have p4 : l.Perm (gAt l i :: (l.take i ++ l.drop (i+1))) := by
        rw [gAt_eq_getElem hi]
        conv_lhs => rw [p3]
        exact List.perm_middle
      exact (p1.trans p2).trans p4
    exact hchain.cons_inv
  · rw [if_neg hni]
    have hieq : i = l.length - 1 := by omega
    have hdrop : l.drop (i+1) = [] := List.drop_eq_nil_of_le (by omega)
    rw [hdrop, List.append_nil, List.dropLast_eq_take, hieq]

theorem hFind_some :
    ∀ {l : List PJob} {id : JobId} {i : Nat}, hFind l id = some i →
      i < l.length ∧ (gAt l i).job.id = id := by
  intro l
  induction l with
  | nil => intro id i h; cases h
  | cons e es ih =>
    intro id i h
    unfold hFind at h
    by_cases he : e.job.id = id
    · rw [if_pos he] at h
      cases h
      have hg0 : gAt (e :: es) 0 = e := by simp [gAt]
      rw [hg0]
      exact ⟨Nat.succ_pos _, he⟩
    · rw [if_neg he] at h
      cases hf : hFind es id with
      | none => rw [hf] at h; cases h
      | some i' =>
        rw [hf] at h
        cases h
        obtain ⟨hb, hg⟩ := ih hf
        refine ⟨Nat.succ_lt_succ hb, ?_⟩
        have : gAt (e :: es) (i'+1) = gAt es i' := by
          simp [gAt]
        rw [this]
        exact hg

theorem hFind_none_iff {l : List PJob} {id : JobId} :
    hFind l id = none ↔ ∀ e ∈ l, e.job.id ≠ id := by
  induction l with
  | nil => simp [hFind]
  | cons e es ih =>
    unfold hFind
    by_cases he : e.job.id = id
    · simp [he]
    · rw [if_neg he]
      constructor
      · intro h x hx
        rcases List.mem_cons.mp hx with hx | hx
        · rw [hx]; exact he
        · refine (ih.mp ?_) x hx
          cases hf : hFind es id with
          | none => rfl
          | some v => rw [hf] at h; cases h
      · intro h
        have hn : hFind es id = none :=
          ih.mpr (fun x hx => h x (List.mem_cons_of_mem _ hx))
        rw [hn]
        rfl

theorem hFind_zero {l : List PJob} (h : l ≠ []) :
    hFind l (gAt l 0).job.id = some 0 := by
  cases l with
  | nil => exact absurd rfl h
  | cons e es =>
    have hg : gAt (e :: es) 0 = e := by simp [gAt]
    rw [hg]
    simp [hFind]

/-- Job IDs present in the heap array (the key set of
`periodicHeap.index`, which the source keeps in lockstep with the
array). -/
def hIds (l : List PJob) : List JobId :=
  l.map (fun e => e.job.id)

theorem hFind_isSome_iff {l : List PJob} {id : JobId} :
    (hFind l id).isSome = true ↔ id ∈ hIds l := by
  cases hf : hFind l id with
  | none =>
    simp only [Option.isSome_none, Bool.false_eq_true, false_iff]
    intro hmem
    obtain ⟨e, he, heq⟩ := List.mem_map.mp hmem
    exact (hFind_none_iff.mp hf e he) heq
  | some i =>
    simp only [Option.isSome_some, true_iff]
    obtain ⟨hb, hg⟩ := hFind_some hf
    refine List.mem_map.mpr ⟨gAt l i, ?_, hg⟩
    rw [gAt_eq_getElem hb]
    exact List.getElem_mem hb

/-- Go map read: association-list lookup. -/
def mlookup : List (JobId × Job) → JobId → Option Job
  | [], _ => none
  | (k, v) :: t, id => if k = id then some v else mlookup t id

/-- Go map write `m[k] = v`: replace in place, or append a new binding. -/
def minsert : List (JobId × Job) → JobId → Job → List (JobId × Job)
  | [], k, v => [(k, v)]
  | (k2, v2) :: t, k, v =>
    if k2 = k then (k, v) :: t else (k2, v2) :: minsert t k v

/-- Go map `delete(m, k)`. -/
def mdelete : List (JobId × Job) → JobId → List (JobId × Job)
  | [], _ => []
  | (k2, v2) :: t, k => if k2 = k then t else (k2, v2) :: mdelete t k

/-- Key set of the registry map. -/
def mkeys (m : List (JobId × Job)) : List JobId :=
  m.map Prod.fst

/-- Errors surfaced by the dispatcher API, one constructor per
`fmt.Errorf` site in the source. -/
inductive PDErr where
  | disabled : PDErr
  | notTracked : PDErr
  | addUpdateFailed : PDErr
  | addPushFailed : PDErr
  | removeFailed : PDErr
  | derivationFailure : PDErr
deriving DecidableEq

/-- The mutable state of `PeriodicDispatch`: the enabled/running flags,
the `tracked` registry map and the launch-time heap (channels and the
logger carry no scheduling state and are omitted). -/
structure PDState where
  enabled : Bool
  running : Bool
  tracked : List (JobId × Job)
  heap : List PJob

/-- `NewPeriodicDispatch`: fresh dispatcher state. -/
def initState : PDState :=
  { enabled := false, running := false, tracked := [], heap := [] }

/-- `PeriodicDispatch.removeLocked`: no-op when disabled or untracked;
otherwise deletes from the registry and removes from the heap, wrapping
a heap failure. -/
def removeLockedOp (st : PDState) (id : JobId) : PDState × Option PDErr :=
  if !st.enabled then (st, none)
  else
    match mlookup st.tracked id with
    | some job =>
      let tr := mdelete st.tracked id
      match heapRemoveOp st.heap job with
      | some h2 => ({ st with tracked := tr, heap := h2 }, none)
      | none => ({ st with tracked := tr }, some .removeFailed)
    | none => (st, none)

/-- `PeriodicDispatch.Add`.  Mirrors the source line by line: no-op when
disabled; a non-periodic or periodic-disabled job is removed when
tracked (the `removeLocked` error being discarded); otherwise the
registry is written first and then the heap is pushed or updated, heap
failures being wrapped into an error. -/
def addOp (st : PDState) (job : Job) (now : Int) : PDState × Option PDErr :=
  if !st.enabled then (st, none)
  else
    let disabled := !(jobIsPeriodic job) || !(jobPeriodicEnabled job)
    let tracked := (mlookup st.tracked job.id).isSome
    if disabled then
      if tracked then ((removeLockedOp st job.id).1, none) else (st, none)
    else
      let tracked2 := minsert st.tracked job.id job
      let next := resolveNext job now
      if tracked then
        match heapUpdateOp st.heap job next with
        | some h2 => ({ st with tracked := tracked2, heap := h2 }, none)
        | none => ({ st with tracked := tracked2 }, some .addUpdateFailed)
      else
        match heapPushOp st.heap job next with
        | some h2 => ({ st with tracked := tracked2, heap := h2 }, none)
        | none => ({ st with tracked := tracked2 }, some .addPushFailed)

/-- `PeriodicDispatch.Remove` simply locks and delegates. -/
def removeOp (st : PDState) (id : JobId) : PDState × Option PDErr :=
  removeLockedOp st id

/-- The decimal digit character for `d` (`d < 10`; defaults to the digit
9 out of range, which the printers never hit). -/
def dchar (d : Nat) : Char :=
  match d with
  | 0 => '0'
  | 1 => '1'
  | 2 => '2'
  | 3 => '3'
  | 4 => '4'
  | 5 => '5'
  | 6 => '6'
  | 7 => '7'
  | 8 => '8'
  | _ => '9'

/-- Decimal printing of a natural number, most significant digit first
(fuel-structural; any fuel above the digit count computes it exactly). -/
def natA : Nat → Nat → List Char → List Char
  | 0, _, acc => acc
  | fuel+1, n, acc =>
    if n < 10 then dchar n :: acc
    else natA fuel (n / 10) (dchar (n % 10) :: acc)

/-- `fmt.Sprintf` of a natural number in base 10. -/
def natChars (n : Nat) : List Char :=
  natA (n+1) n []

/-- `fmt.Sprintf("%d", i)` for a (signed) integer. -/
def intChars : Int → List Char
  | Int.ofNat n => natChars n
  | Int.negSucc m => '-' :: natChars (m+1)

/-- `JobLaunchSuffix`: the marker appended to a periodic job's ID when
deriving instances. -/
def jobLaunchSuffix : List Char :=
  ['/', 'p', 'e', 'r', 'i', 'o', 'd', 'i', 'c', '-']

/-- `PeriodicDispatch.derivedJobID`: parent ID, launch suffix, then the
launch time in integer Unix seconds. -/
def derivedJobID (periodicJob : Job) (t : Int) : JobId :=
  periodicJob.id ++ jobLaunchSuffix ++ intChars t

/-- The numeric value of a digit character, failing on non-digits
(`strconv.Atoi` building block). -/
def digitVal (c : Char) : Option Nat :=
  if '0' ≤ c ∧ c ≤ '9' then some (c.toNat - 48) else none

/-- Whether every character is a decimal digit. -/
def allDigits (s : List Char) : Bool :=
  s.all (fun c => ('0' ≤ c ∧ c ≤ '9' : Bool))

/-- Value of a digit string, most significant digit first. -/
def digitsVal (s : List Char) : Nat :=
  s.foldl (fun a c => a * 10 + (c.toNat - 48)) 0

/-- `strconv.Atoi`: an optional sign followed by at least one digit; any
other character is an error. -/
def atoi (s : List Char) : Option Int :=
  match s with
  | [] => none
  | c :: rest =>
    if c = '-' then
      if rest ≠ [] ∧ allDigits rest then some (-(digitsVal rest : Int))
      else none
    else if c = '+' then
      if rest ≠ [] ∧ allDigits rest then some ((digitsVal rest : Int))
      else none
    else if allDigits (c :: rest) then some ((digitsVal (c :: rest) : Int))
    else none

/-- Whether `pat` is an initial segment of `s` (the substring test at one
position). -/
def leads : List Char → List Char → Bool
  | [], _ => true
  | _ :: _, [] => false
  | a :: as, b :: bs => a = b && leads as bs

/-- Scan positions `i, i-1, ..., 0` for the last occurrence of `pat`. -/
def lastIdxFrom : Nat → List Char → List Char → Option Nat
  | 0, s, pat => if leads pat s then some 0 else none
  | i+1, s, pat =>
    if leads pat (s.drop (i+1)) then some (i+1) else lastIdxFrom i s pat

/-- `strings.LastIndex`: the largest index at which `pat` occurs in `s`,
or `none`. -/
def lastIndex (s pat : List Char) : Option Nat :=
  lastIdxFrom s.length s pat

/-- `PeriodicDispatch.LaunchTime`: decode the launch instant from a
derived job ID; errors become `none`. -/
def launchTimeFn (jobID : JobId) : Option Int :=
  match lastIndex jobID jobLaunchSuffix with
  | none => none
  | some index => atoi (jobID.drop (index + jobLaunchSuffix.length))

/-- `PeriodicDispatch.deriveJob`: on a copy fault the recover handler
removes the job from the dispatcher and yields a derivation failure;
otherwise the copy gets the derived ID and name, its parent set, its
periodic configuration cleared and its GC flag set. -/
def deriveJobOp (st : PDState) (periodicJob : Job) (t : Int) :
    PDState × Option Job × Option PDErr :=
  if periodicJob.copyFails then
    ((removeOp st periodicJob.id).1, none, some .derivationFailure)
  else
    (st,
     some { periodicJob with
              parentID := periodicJob.id,
              id := derivedJobID periodicJob t,
              name := derivedJobID periodicJob t,
              periodic := none,
              gc := true },
     none)

/-- `PeriodicDispatch.createEval`: derive, then hand the derived job to
the external `JobEvalDispatcher` (modelled as always accepting; the
dispatched job is returned so properties can speak about what was
submitted). -/
def createEvalOp (st : PDState) (periodicJob : Job) (t : Int) :
    PDState × Option Job × Option PDErr :=
  match deriveJobOp st periodicJob t with
  | (st2, some derived, _) => (st2, some derived, none)
  | (st2, none, e) => (st2, none, e)

/-- `PeriodicDispatch.ForceRun`: fails when disabled or untracked,
otherwise synchronously runs `createEval` at the current instant. -/
def forceRunOp (st : PDState) (jobID : JobId) (now : Int) :
    PDState × Option Job × Option PDErr :=
  if !st.enabled then (st, none, some .disabled)
  else
    match mlookup st.tracked jobID with
    | none => (st, none, some .notTracked)
    | some job => createEvalOp st job now

/-- `PeriodicDispatch.Flush`: reset the registry and the heap (the
channels carry no scheduling state). -/
def flushOp (st : PDState) : PDState :=
  { st with tracked := [], heap := [] }

/-- `PeriodicDispatch.SetEnabled`: set the flag; disabling also stops
the loop and flushes. -/
def setEnabledOp (st : PDState) (enabled : Bool) : PDState :=
  let st1 := { st with enabled := enabled }
  if !enabled then
    flushOp (if st1.running then { st1 with running := false } else st1)
  else st1

/-- `PeriodicDispatch.Start`: mark the loop as running. -/
def startOp (st : PDState) : PDState :=
  { st with running := true }

/-- `PeriodicDispatch.Tracked`: the tracked job templates. -/
def trackedFn (st : PDState) : List Job :=
  st.tracked.map Prod.snd

/-- One dispatch pass (`PeriodicDispatch.dispatch`) on the heap, with
fuel: peek the minimum; stop when the heap is empty or the minimum's
instant differs from `launchTime`; otherwise write back the resolver's
result at `now` (an update failure is logged and the loop continues)
and hand the job off asynchronously.  Returns the heap, the handed-off
`(job, launchTime)` pairs in order, and whether a `return` branch was
reached (`false` means the fuel ran out). -/
def dispatchAux : Nat → List PJob → GoTime → Int →
    List PJob × List (Job × GoTime) × Bool
  | 0, l, _, _ => (l, [], false)
  | fuel+1, l, launchTime, now =>
    if l.length = 0 then (l, [], true)
    else
      let j := gAt l 0
      if j.next ≠ launchTime then (l, [], true)
      else
        let l2 := match heapUpdateOp l j.job (resolveNext j.job now) with
          | some h2 => h2
          | none => l
        let r := dispatchAux fuel l2 launchTime now
        (r.1, (j.job, launchTime) :: r.2.1, r.2.2)

/-- `PeriodicDispatch.dispatch` at the state level. -/
def dispatchOp (st : PDState) (fuel : Nat) (launchTime : GoTime)
    (now : Int) : PDState × List (Job × GoTime) × Bool :=
  let r := dispatchAux fuel st.heap launchTime now
  ({ st with heap := r.1 }, r.2.1, r.2.2)

/-- States reachable from a fresh dispatcher by any sequence of API
calls and dispatch passes (the `derive` step is the asynchronous
`createEval` body spawned by a dispatch pass). -/
inductive Reach : PDState → Prop where
  | init : Reach initState
  | add (st : PDState) (job : Job) (now : Int) :
      Reach st → Reach (addOp st job now).1
  | remove (st : PDState) (id : JobId) :
      Reach st → Reach (removeOp st id).1
  | forceRun (st : PDState) (id : JobId) (now : Int) :
      Reach st → Reach (forceRunOp st id now).1
  | setEnabled (st : PDState) (e : Bool) :
      Reach st → Reach (setEnabledOp st e)
  | start (st : PDState) : Reach st → Reach (startOp st)
  | flush (st : PDState) : Reach st → Reach (flushOp st)
  | dispatch (st : PDState) (fuel : Nat) (launchTime : GoTime) (now : Int) :
      Reach st → Reach (dispatchOp st fuel launchTime now).1
  | derive (st : PDState) (pj : Job) (t : Int) :
      Reach st → Reach (deriveJobOp st pj t).1

theorem mlookup_cons (k2 : JobId) (v2 : Job) (t : List (JobId × Job))
    (id : JobId) :
    mlookup ((k2, v2) :: t) id =
      if k2 = id then some v2 else mlookup t id := rfl

theorem minsert_cons (k2 : JobId) (v2 : Job) (t : List (JobId × Job))
    (k : JobId) (v : Job) :
    minsert ((k2, v2) :: t) k v =
      if k2 = k then (k, v) :: t else (k2, v2) :: minsert t k v := rfl

theorem mdelete_cons (k2 : JobId) (v2 : Job) (t : List (JobId × Job))
    (k : JobId) :
    mdelete ((k2, v2) :: t) k =
      if k2 = k then t else (k2, v2) :: mdelete t k := rfl

theorem mlookup_isSome_iff {m : List (JobId × Job)} {id : JobId} :
    (mlookup m id).isSome = true ↔ id ∈ mkeys m := by
  induction m with
  | nil =>
    constructor
    · intro h; cases h
    · intro h; cases h
  | cons kv t ih =>
    obtain ⟨k, v⟩ := kv
    show (if k = id then some v else mlookup t id).isSome = true ↔
      id ∈ k :: mkeys t
    by_cases hk : k = id
    · rw [if_pos hk, hk]
      simp
    · rw [if_neg hk, List.mem_cons, ih]
      constructor
      · intro h
        exact Or.inr h
      · intro h
        rcases h with h | h
        · exact absurd h.symm hk
        · exact h

theorem mkeys_minsert (m : List (JobId × Job)) (k : JobId) (v : Job) :
    ∀ id, id ∈ mkeys (minsert m k v) ↔ (id ∈ mkeys m ∨ id = k) := by
  induction m with
  | nil =>
    intro id
    show id ∈ [k] ↔ id ∈ ([] : List JobId) ∨ id = k
    simp
  | cons kv t ih =>
    intro id
    obtain ⟨k2, v2⟩ := kv
    rw [minsert_cons]
    by_cases hk : k2 = k
    · rw [if_pos hk,
        show mkeys ((k, v) :: t) = k :: mkeys t from rfl,
        show mkeys ((k2, v2) :: t) = k2 :: mkeys t from rfl, hk,
        List.mem_cons]
      tauto
    · rw [if_neg hk,
        show mkeys ((k2, v2) :: minsert t k v) =
          k2 :: mkeys (minsert t k v) from rfl,
        show mkeys ((k2, v2) :: t) = k2 :: mkeys t from rfl,
        List.mem_cons, List.mem_cons, ih id]
      tauto

theorem mkeys_minsert_nodup {m : List (JobId × Job)} (k : JobId) (v : Job)
    (h : (mkeys m).Nodup) : (mkeys (minsert m k v)).Nodup := by
  induction m with
  | nil =>
    show ([k] : List JobId).Nodup
    simp
  | cons kv t ih =>
    obtain ⟨k2, v2⟩ := kv
    rw [show mkeys ((k2, v2) :: t) = k2 :: mkeys t from rfl,
      List.nodup_cons] at h
    rw [minsert_cons]
    by_cases hk : k2 = k
    · rw [if_pos hk,
        show mkeys ((k, v) :: t) = k :: mkeys t from rfl, List.nodup_cons]
      exact ⟨hk ▸ h.1, h.2⟩
    · rw [if_neg hk,
        show mkeys ((k2, v2) :: minsert t k v) =
          k2 :: mkeys (minsert t k v) from rfl, List.nodup_cons]
      refine ⟨?_, ih h.2⟩
      intro hmem
      rcases (mkeys_minsert t k v k2).mp hmem with hm | hm
      · exact h.1 hm
      · exact hk hm

theorem mlookup_minsert_self (m : List (JobId × Job)) (k : JobId) (v : Job) :
    mlookup (minsert m k v) k = some v := by
  induction m with
  | nil =>
    show (if k = k then some v else none) = some v
    rw [if_pos rfl]
  | cons kv t ih =>
    obtain ⟨k2, v2⟩ := kv
    rw [minsert_cons]
    by_cases hk : k2 = k
    · rw [if_pos hk, mlookup_cons, if_pos rfl]
    · rw [if_neg hk, mlookup_cons, if_neg hk]
      exact ih

theorem mlookup_minsert_ne (m : List (JobId × Job)) {k id : JobId} (v : Job)
    (h : id ≠ k) : mlookup (minsert m k v) id = mlookup m id := by
  induction m with
  | nil =>
    show (if k = id then some v else none) = none
    rw [if_neg (Ne.symm h)]
  | cons kv t ih =>
    obtain ⟨k2, v2⟩ := kv
    rw [minsert_cons]
    by_cases hk : k2 = k
    · rw [if_pos hk, mlookup_cons, mlookup_cons,
        if_neg (Ne.symm h), if_neg (by rw [hk]; exact Ne.symm h)]
    · rw [if_neg hk, mlookup_cons, mlookup_cons]
      by_cases hk2 : k2 = id
      · rw [if_pos hk2, if_pos hk2]
      · rw [if_neg hk2, if_neg hk2]
        exact ih

theorem mkeys_mdelete (m : List (JobId × Job)) (k : JobId)
    (h : (mkeys m).Nodup) :
    (mkeys (mdelete m k)).Nodup ∧
    (∀ id, id ∈ mkeys (mdelete m k) ↔ (id ∈ mkeys m ∧ id ≠ k)) := by
  induction m with
  | nil =>
    refine ⟨List.nodup_nil, ?_⟩
    intro id
    constructor
    · intro hc; cases hc
    · intro hc; cases hc.1
  | cons kv t ih =>
    obtain ⟨k2, v2⟩ := kv
    rw [show mkeys ((k2, v2) :: t) = k2 :: mkeys t from rfl,
      List.nodup_cons] at h
    obtain ⟨hnotin, hnd⟩ := h
    by_cases hk : k2 = k
    · rw [mdelete_cons, if_pos hk]
      refine ⟨hnd, ?_⟩
      intro id
      rw [show mkeys ((k2, v2) :: t) = k2 :: mkeys t from rfl, List.mem_cons]
      constructor
      · intro hmem
        refine ⟨Or.inr hmem, ?_⟩
        intro heq
        rw [heq, ← hk] at hmem
        exact hnotin hmem
      · intro hmem
        rcases hmem.1 with hm | hm
        · exact absurd (hm.trans hk) hmem.2
        · exact hm
    · rw [mdelete_cons, if_neg hk]
      obtain ⟨ihnd, ihmem⟩ := ih hnd
      constructor
      · rw [show mkeys ((k2, v2) :: mdelete t k) =
          k2 :: mkeys (mdelete t k) from rfl, List.nodup_cons]
        refine ⟨?_, ihnd⟩
        intro hmem
        exact hnotin ((ihmem k2).mp hmem).1
      · intro id
        rw [show mkeys ((k2, v2) :: mdelete t k) =
          k2 :: mkeys (mdelete t k) from rfl,
          show mkeys ((k2, v2) :: t) = k2 :: mkeys t from rfl,
          List.mem_cons, List.mem_cons, ihmem id]
        constructor
        · intro hm
          rcases hm with hm | hm
          · refine ⟨Or.inl hm, ?_⟩
            intro hc
            exact hk ((hm.symm.trans hc))
          · exact ⟨Or.inr hm.1, hm.2⟩
        · intro hm
          rcases hm.1 with h2 | h2
          · exact Or.inl h2
          · exact Or.inr ⟨h2, hm.2⟩

theorem mlookup_mdelete_self {m : List (JobId × Job)} (k : JobId)
    (h : (mkeys m).Nodup) : mlookup (mdelete m k) k = none := by
  have hm := (mkeys_mdelete m k h).2 k
  cases hl : mlookup (mdelete m k) k with
  | none => rfl
  | some v =>
    exfalso
    have hmem : k ∈ mkeys (mdelete m k) :=
      mlookup_isSome_iff.mp (by rw [hl]; rfl)
    exact ((hm.mp hmem).2) rfl

theorem mlookup_mdelete_ne (m : List (JobId × Job)) {k id : JobId}
    (h : id ≠ k) : mlookup (mdelete m k) id = mlookup m id := by
  induction m with
  | nil => rfl
  | cons kv t ih =>
    obtain ⟨k2, v2⟩ := kv
    by_cases hk : k2 = k
    · rw [mdelete_cons, if_pos hk, mlookup_cons,
        if_neg (by rw [hk]; exact Ne.symm h)]
    · rw [mdelete_cons, if_neg hk, mlookup_cons, mlookup_cons]
      by_cases hk2 : k2 = id
      · rw [if_pos hk2, if_pos hk2]
      · rw [if_neg hk2, if_neg hk2]
        exact ih

theorem heapUpdate_wf {l : List PJob} {job : Job} {nx : GoTime}
    {h2 : List PJob} (hv : HeapValid l)
    (hupd : heapUpdateOp l job nx = some h2) :
    HeapValid h2 ∧ (hIds h2).Perm (hIds l) ∧ h2.length = l.length := by
  unfold heapUpdateOp at hupd
  cases hf : hFind l job.id with
  | none =>
    rw [hf] at hupd
    cases hupd
  | some i =>
    rw [hf] at hupd
    have hh := Option.some.inj hupd
    subst hh
    obtain ⟨hi, hgid⟩ := hFind_some hf
    refine ⟨?_, ?_, ?_⟩
    · have hval := heapFix_validN hv hi (PJob.mk job nx)
      rw [HeapValid, heapFix_length, List.length_set]
      exact hval
    · have hperm := heapFix_perm (l.set i (PJob.mk job nx)) i
      have hmap : hIds (l.set i (PJob.mk job nx)) = hIds l := by
        rw [hIds, List.map_set]
        have hmi : i < (List.map (fun e => e.job.id) l).length := by
          rw [List.length_map]
          exact hi
        have hval2 : (List.map (fun e => e.job.id) l)[i] = job.id := by
          rw [List.getElem_map]
          rw [← gAt_eq_getElem hi]
          exact hgid
        calc (List.map (fun e => e.job.id) l).set i (PJob.mk job nx).job.id
            = (List.map (fun e => e.job.id) l).set i
              ((List.map (fun e => e.job.id) l)[i]) := by rw [hval2]
          _ = List.map (fun e => e.job.id) l := set_getElem_id _ i hmi
      have := List.Perm.map (fun e => e.job.id) hperm
      rw [show List.map (fun e => e.job.id)
          (heapFix (l.set i (PJob.mk job nx)) i) =
        hIds (heapFix (l.set i (PJob.mk job nx)) i) from rfl] at this
      rw [show List.map (fun e => e.job.id) (l.set i (PJob.mk job nx)) =
        hIds (l.set i (PJob.mk job nx)) from rfl] at this
      rw [hmap] at this
      exact this
    · rw [heapFix_length, List.length_set]

theorem heapPush_wf {l : List PJob} {job : Job} {nx : GoTime}
    {h2 : List PJob} (hv : HeapValid l)
    (hp : heapPushOp l job nx = some h2) :
    HeapValid h2 ∧ (hIds h2).Perm (hIds l ++ [job.id]) ∧
      h2.length = l.length + 1 ∧ hFind l job.id = none := by
  unfold heapPushOp at hp
  cases hf : hFind l job.id with
  | some i =>
    rw [hf] at hp
    cases hp
  | none =>
    rw [hf] at hp
    have hh := Option.some.inj hp
    subst hh
    refine ⟨heapPushArr_validN hv _, ?_, heapPushArr_length l _, rfl⟩
    have hperm := heapPushArr_perm l (PJob.mk job nx)
    have := List.Perm.map (fun e => e.job.id) hperm
    rw [List.map_append] at this
    exact this

theorem heapRemoveAt_ids {l : List PJob} {i : Nat} (hi : i < l.length)
    (hnd : (hIds l).Nodup) :
    (hIds (heapRemoveAt l i)).Nodup ∧
    ∀ id, id ∈ hIds (heapRemoveAt l i) ↔
      (id ∈ hIds l ∧ id ≠ (gAt l i).job.id) := by
  have hperm := heapRemoveAt_perm hi
  have hmapperm : (hIds (heapRemoveAt l i)).Perm
      (hIds (l.take i) ++ hIds (l.drop (i+1))) := by
    have := List.Perm.map (fun e => e.job.id) hperm
    rw [List.map_append] at this
    exact this
  have hdecomp : hIds l =
      hIds (l.take i) ++ (gAt l i).job.id :: hIds (l.drop (i+1)) := by
    conv_lhs => rw [hIds,
      show l = l.take i ++ l[i] :: l.drop (i+1) by
        conv_lhs => rw [← List.take_append_drop i l]
        rw [List.drop_eq_getElem_cons hi]]
    rw [List.map_append, List.map_cons, gAt_eq_getElem hi]
    rfl
  rw [hdecomp] at hnd
  obtain ⟨hA, hxB, hdisj⟩ := List.nodup_append.mp hnd
  rw [List.nodup_cons] at hxB
  obtain ⟨hxnB, hB⟩ := hxB
  have hABnd : (hIds (l.take i) ++ hIds (l.drop (i+1))).Nodup := by
    rw [List.nodup_append]
    refine ⟨hA, hB, ?_⟩
    intro a haA haB
    exact hdisj haA (List.mem_cons_of_mem _ haB)
  refine ⟨(List.Perm.nodup_iff hmapperm).mpr hABnd, ?_⟩
  intro id
  rw [List.Perm.mem_iff hmapperm, hdecomp, List.mem_append, List.mem_append,
    List.mem_cons]
  constructor
  · intro hm
    rcases hm with hm | hm
    · refine ⟨Or.inl hm, ?_⟩
      intro hc
      exact hdisj (hc ▸ hm) (List.mem_cons_self _ _)
    · refine ⟨Or.inr (Or.inr hm), ?_⟩
      intro hc
      exact hxnB (hc ▸ hm)
  · intro hm
    rcases hm.1 with h2 | h2
    · exact Or.inl h2
    · rcases h2 with h2 | h2
      · exact absurd h2 hm.2
      · exact Or.inr h2

theorem heapRemove_wf {l : List PJob} {job : Job} {h2 : List PJob}
    (hv : HeapValid l) (hnd : (hIds l).Nodup)
    (hr : heapRemoveOp l job = some h2) :
    HeapValid h2 ∧ (hIds h2).Nodup ∧
    (∀ id, id ∈ hIds h2 ↔ (id ∈ hIds l ∧ id ≠ job.id)) ∧
    h2.length = l.length - 1 := by
  unfold heapRemoveOp at hr
  cases hf : hFind l job.id with
  | none =>
    rw [hf] at hr
    cases hr
  | some i =>
    rw [hf] at hr
    have hh := Option.some.inj hr
    subst hh
    obtain ⟨hi, hgid⟩ := hFind_some hf
    obtain ⟨hnd2, hmem⟩ := heapRemoveAt_ids hi hnd
    refine ⟨heapRemoveAt_validN hv hi, hnd2, ?_, heapRemoveAt_length l i⟩
    intro id
    rw [hmem id, hgid]

/-- The dispatcher's structural invariant: registry keys and heap IDs
have no duplicates, registry bindings carry their own key, the registry
key set and the heap ID set coincide, and the heap array is
heap-ordered. -/
structure WF (st : PDState) : Prop where
  keysNodup : (mkeys st.tracked).Nodup
  idsNodup : (hIds st.heap).Nodup
  bindOk : ∀ id job, mlookup st.tracked id = some job → job.id = id
  keysIff : ∀ id : JobId,
    (mlookup st.tracked id).isSome = true ↔ id ∈ hIds st.heap
  valid : HeapValid st.heap

theorem wf_init : WF initState := by
  refine ⟨List.nodup_nil, List.nodup_nil, ?_, ?_, ?_⟩
  · intro id job h
    cases h
  · intro id
    constructor
    · intro h
      cases h
    · intro h
      cases h
  · intro c hc h0
    cases hc

theorem wf_empty {st : PDState} (ht : st.tracked = []) (hh : st.heap = []) :
    WF st := by
  refine ⟨?_, ?_, ?_, ?_, ?_⟩
  · rw [ht]
    exact List.nodup_nil
  · rw [hh]
    exact List.nodup_nil
  · intro id job h
    rw [ht] at h
    cases h
  · intro id
    rw [ht, hh]
    simp [mlookup, hIds]
  · rw [hh]
    intro c hc h0
    cases hc

theorem wf_removeLocked {st : PDState} (hwf : WF st) (id : JobId) :
    WF (removeLockedOp st id).1 := by
  unfold removeLockedOp
  cases hen : st.enabled with
  | false =>
    rw [if_pos (by rfl)]
    exact hwf
  | true =>
    rw [if_neg (by decide)]
    cases hlk : mlookup st.tracked id with
    | none => exact hwf
    | some job =>
      have hjid : job.id = id := hwf.bindOk id job hlk
      have hmem : id ∈ hIds st.heap :=
        (hwf.keysIff id).mp (by rw [hlk]; rfl)
      cases hro : heapRemoveOp st.heap job with
      | none =>
        exfalso
        unfold heapRemoveOp at hro
        cases hf : hFind st.heap job.id with
        | some i =>
          rw [hf] at hro
          cases hro
        | none =>
          obtain ⟨e, he, heid⟩ := List.mem_map.mp hmem
          exact (hFind_none_iff.mp hf e he) (hjid ▸ heid)
      | some h2 =>
        dsimp only
        rw [hro]
        dsimp only
        obtain ⟨hv2, hnd2, hmem2, _⟩ :=
          heapRemove_wf hwf.valid hwf.idsNodup hro
        obtain ⟨hdnd, hdmem⟩ := mkeys_mdelete st.tracked id hwf.keysNodup
        refine ⟨hdnd, hnd2, ?_, ?_, hv2⟩
        · intro id2 job2 hlk2
          by_cases hid2 : id2 = id
          · rw [hid2] at hlk2
            rw [mlookup_mdelete_self id hwf.keysNodup] at hlk2
            cases hlk2
          · rw [mlookup_mdelete_ne st.tracked hid2] at hlk2
            exact hwf.bindOk id2 job2 hlk2
        · intro id2
          by_cases hid2 : id2 = id
          · rw [hid2, mlookup_mdelete_self id hwf.keysNodup]
            simp only [Option.isSome_none, Bool.false_eq_true, false_iff]
            intro hc
            exact ((hmem2 id).mp hc).2 hjid.symm
          · rw [mlookup_mdelete_ne st.tracked hid2, hwf.keysIff id2,
              hmem2 id2, hjid]
            constructor
            · intro h
              exact ⟨h, hid2⟩
            · intro h
              exact h.1

theorem wf_remove {st : PDState} (hwf : WF st) (id : JobId) :
    WF (removeOp st id).1 :=
  wf_removeLocked hwf id

theorem wf_add {st : PDState} (hwf : WF st) (job : Job) (now : Int) :
    WF (addOp st job now).1 := by
  unfold addOp
  cases hen : st.enabled with
  | false =>
    rw [if_pos (by rfl)]
    exact hwf
  | true =>
    rw [if_neg (by decide)]
    by_cases hdis : (!(jobIsPeriodic job) || !(jobPeriodicEnabled job)) = true
    · rw [if_pos hdis]
      by_cases htr : (mlookup st.tracked job.id).isSome = true
      · rw [if_pos htr]
        exact wf_removeLocked hwf job.id
      · rw [if_neg htr]
        exact hwf
    · rw [if_neg hdis]
      by_cases htr : (mlookup st.tracked job.id).isSome = true
      · rw [if_pos htr]
        have hmem : job.id ∈ hIds st.heap := (hwf.keysIff job.id).mp htr
        cases hup : heapUpdateOp st.heap job (resolveNext job now) with
        | none =>
          exfalso
          unfold heapUpdateOp at hup
          cases hf : hFind st.heap job.id with
          | some i =>
            rw [hf] at hup
            cases hup
          | none =>
            obtain ⟨e, he, heid⟩ := List.mem_map.mp hmem
            exact (hFind_none_iff.mp hf e he) heid
        | some h2 =>
          dsimp only
          obtain ⟨hv2, hperm2, _⟩ := heapUpdate_wf hwf.valid hup
          refine ⟨mkeys_minsert_nodup job.id job hwf.keysNodup, ?_, ?_, ?_,
            hv2⟩
          · exact (List.Perm.nodup_iff hperm2).mpr hwf.idsNodup
          · intro id2 job2 hlk2
            by_cases hid2 : id2 = job.id
            · rw [hid2, mlookup_minsert_self] at hlk2
              have := Option.some.inj hlk2
              rw [← this, hid2]
            · rw [mlookup_minsert_ne st.tracked job hid2] at hlk2
              exact hwf.bindOk id2 job2 hlk2
          · intro id2
            rw [List.Perm.mem_iff hperm2]
            by_cases hid2 : id2 = job.id
            · rw [hid2, mlookup_minsert_self]
              simp only [Option.isSome_some, true_iff]
              exact hmem
            · rw [mlookup_minsert_ne st.tracked job hid2]
              exact hwf.keysIff id2
      · rw [if_neg htr]
        have hnmem : job.id ∉ hIds st.heap := by
          intro hc
          exact htr ((hwf.keysIff job.id).mpr hc)
        cases hpu : heapPushOp st.heap job (resolveNext job now) with
        | none =>
          exfalso
          unfold heapPushOp at hpu
          cases hf : hFind st.heap job.id with
          | some i =>
            exact hnmem (hFind_isSome_iff.mp (by rw [hf]; rfl))
          | none =>
            rw [hf] at hpu
            cases hpu
        | some h2 =>
          dsimp only
          obtain ⟨hv2, hperm2, _, _⟩ := heapPush_wf hwf.valid hpu
          refine ⟨mkeys_minsert_nodup job.id job hwf.keysNodup, ?_, ?_, ?_,
            hv2⟩
          · refine (List.Perm.nodup_iff hperm2).mpr ?_
            rw [List.nodup_append]
            refine ⟨hwf.idsNodup, List.nodup_singleton _, ?_⟩
            intro a ha hb
            rw [List.mem_singleton] at hb
            exact hnmem (hb ▸ ha)
          · intro id2 job2 hlk2
            by_cases hid2 : id2 = job.id
            · rw [hid2, mlookup_minsert_self] at hlk2
              have := Option.some.inj hlk2
              rw [← this, hid2]
            · rw [mlookup_minsert_ne st.tracked job hid2] at hlk2
              exact hwf.bindOk id2 job2 hlk2
          · intro id2
            rw [List.Perm.mem_iff hperm2, List.mem_append, List.mem_singleton]
            by_cases hid2 : id2 = job.id
            · rw [hid2, mlookup_minsert_self]
              simp only [Option.isSome_some, true_iff]
              exact Or.inr (by trivial)
            · rw [mlookup_minsert_ne st.tracked job hid2, hwf.keysIff id2]
              constructor
              · intro h
                exact Or.inl h
              · intro h
                rcases h with h | h
                · exact h
                · exact absurd h hid2

theorem wf_deriveJob {st : PDState} (hwf : WF st) (pj : Job) (t : Int) :
    WF (deriveJobOp st pj t).1 := by
  unfold deriveJobOp
  by_cases hcf : pj.copyFails = true
  · rw [if_pos hcf]
    exact wf_remove hwf pj.id
  · rw [if_neg hcf]
    exact hwf

theorem wf_createEval {st : PDState} (hwf : WF st) (pj : Job) (t : Int) :
    WF (createEvalOp st pj t).1 := by
  unfold createEvalOp
  have h := wf_deriveJob hwf pj t
  rcases hd : deriveJobOp st pj t with ⟨st2, od, oe⟩
  rw [hd] at h
  cases od with
  | some d => exact h
  | none => exact h

theorem wf_forceRun {st : PDState} (hwf : WF st) (id : JobId) (now : Int) :
    WF (forceRunOp st id now).1 := by
  unfold forceRunOp
  cases hen : st.enabled with
  | false =>
    rw [if_pos (by rfl)]
    exact hwf
  | true =>
    rw [if_neg (by decide)]
    cases hlk : mlookup st.tracked id with
    | none => exact hwf
    | some job => exact wf_createEval hwf job now

theorem dispatchAux_heap :
    ∀ (fuel : Nat) (l : List PJob) (lt : GoTime) (now : Int),
      HeapValid l →
      HeapValid (dispatchAux fuel l lt now).1 ∧
      (hIds (dispatchAux fuel l lt now).1).Perm (hIds l) ∧
      (dispatchAux fuel l lt now).1.length = l.length := by
  intro fuel
  induction fuel with
  | zero =>
    intro l lt now hv
    exact ⟨hv, List.Perm.refl _, rfl⟩
  | succ fuel ih =>
    intro l lt now hv
    unfold dispatchAux
    by_cases hlen : l.length = 0
    · rw [if_pos hlen]
      exact ⟨hv, List.Perm.refl _, rfl⟩
    · rw [if_neg hlen]
      by_cases hne : (gAt l 0).next ≠ lt
      · rw [if_pos hne]
        exact ⟨hv, List.Perm.refl _, rfl⟩
      · rw [if_neg hne]
        cases hup : heapUpdateOp l (gAt l 0).job
            (resolveNext (gAt l 0).job now) with
        | some h2 =>
          obtain ⟨hv2, hperm2, hlen2⟩ := heapUpdate_wf hv hup
          obtain ⟨ihv, ihp, ihl⟩ := ih h2 lt now hv2
          exact ⟨ihv, ihp.trans hperm2, by rw [ihl, hlen2]⟩
        | none =>
          exact ih l lt now hv

theorem wf_dispatch {st : PDState} (hwf : WF st) (fuel : Nat)
    (lt : GoTime) (now : Int) : WF (dispatchOp st fuel lt now).1 := by
  obtain ⟨hv, hperm, _⟩ := dispatchAux_heap fuel st.heap lt now hwf.valid
  refine ⟨hwf.keysNodup, ?_, hwf.bindOk, ?_, hv⟩
  · exact (List.Perm.nodup_iff hperm).mpr hwf.idsNodup
  · intro id
    show (mlookup st.tracked id).isSome = true ↔
      id ∈ hIds (dispatchAux fuel st.heap lt now).1
    rw [List.Perm.mem_iff hperm]
    exact hwf.keysIff id

theorem wf_setEnabled {st : PDState} (hwf : WF st) (e : Bool) :
    WF (setEnabledOp st e) := by
  unfold setEnabledOp flushOp
  cases e with
  | true =>
    exact ⟨hwf.keysNodup, hwf.idsNodup, hwf.bindOk, hwf.keysIff, hwf.valid⟩
  | false =>
    by_cases hr : st.running = true
    · rw [if_pos (by rfl), if_pos hr]
      exact wf_empty rfl rfl
    · rw [if_pos (by rfl), if_neg hr]
      exact wf_empty rfl rfl

theorem wf_start {st : PDState} (hwf : WF st) : WF (startOp st) :=
  ⟨hwf.keysNodup, hwf.idsNodup, hwf.bindOk, hwf.keysIff, hwf.valid⟩

theorem wf_flush (st : PDState) : WF (flushOp st) :=
  wf_empty rfl rfl

theorem reach_wf {st : PDState} (h : Reach st) : WF st := by
  induction h with
  | init => exact wf_init
  | add st job now _ ih => exact wf_add ih job now
  | remove st id _ ih => exact wf_remove ih id
  | forceRun st id now _ ih => exact wf_forceRun ih id now
  | setEnabled st e _ ih => exact wf_setEnabled ih e
  | start st _ ih => exact wf_start ih
  | flush st _ ih => exact wf_flush st
  | dispatch st fuel lt now _ ih => exact wf_dispatch ih fuel lt now
  | derive st pj t _ ih => exact wf_deriveJob ih pj t

theorem rnk_eq_coe_iff (e : PJob) (v : Int) :
    rnk e = (v : WithTop Int) ↔ e.next = some v := by
  cases he : e.next with
  | none =>
    simp only [rnk, he]
    constructor
    · intro h
      exact absurd h.symm (WithTop.coe_ne_top)
    · intro h
      cases h
  | some w =>
    simp only [rnk, he, WithTop.coe_inj, Option.some.injEq]

theorem mlookup_of_mem :
    ∀ {m : List (JobId × Job)}, (mkeys m).Nodup →
      ∀ {k : JobId} {v : Job}, (k, v) ∈ m → mlookup m k = some v := by
  intro m
  induction m with
  | nil =>
    intro _ k v hm
    cases hm
  | cons kv t ih =>
    intro hnd k v hm
    obtain ⟨k2, v2⟩ := kv
    rw [show mkeys ((k2, v2) :: t) = k2 :: mkeys t from rfl,
      List.nodup_cons] at hnd
    rw [mlookup_cons]
    rcases List.mem_cons.mp hm with hm | hm
    · rw [if_pos (congrArg Prod.fst hm).symm,
        show v2 = v from (congrArg Prod.snd hm).symm]
    · by_cases hk : k2 = k
      · exfalso
        apply hnd.1
        rw [hk]
        exact List.mem_map.mpr ⟨(k, v), hm, rfl⟩
      · rw [if_neg hk]
        exact ih hnd.2 hm

/-- Sample scheduling rule used by concrete witnesses. -/
def sampleRule : Int → GoTime :=
  fun now => some (now + 60)

/-- Sample periodic job used by concrete witnesses. -/
def sampleJob : Job :=
  { id := ['a'], name := ['a'], parentID := [],
    periodic := some { enabled := true, next := sampleRule },
    gc := false, copyFails := false }

/-- Sample reachable state: enable the dispatcher, then add
`sampleJob`. -/
def sampleState : PDState :=
  (addOp (setEnabledOp initState true) sampleJob 0).1

theorem sampleState_reach : Reach sampleState :=
  Reach.add _ sampleJob 0 (Reach.setEnabled _ true Reach.init)

/-- C1: in every state reachable from a fresh dispatcher by Add, Remove,
ForceRun, SetEnabled, Start, Flush and dispatch operations, the job IDs
that are keys of the tracked registry are exactly the job IDs present in
the launch-time heap. -/
theorem c1_registry_heap_keys_agree {st : PDState} (h : Reach st) :
    ∀ id : JobId, id ∈ mkeys st.tracked ↔ id ∈ hIds st.heap := by
  intro id
  rw [← mlookup_isSome_iff]
  exact (reach_wf h).keysIff id

theorem c1_witness :
    Reach sampleState ∧
    (∀ id : JobId, id ∈ mkeys sampleState.tracked ↔
      id ∈ hIds sampleState.heap) :=
  ⟨sampleState_reach, c1_registry_heap_keys_agree sampleState_reach⟩

/-- C5: while the dispatcher is disabled, Add and Remove return no error
and leave the state untouched, and ForceRun fails with the explicit
disabled error and hands nothing to the submission path. -/
theorem c5_disabled_noop {st : PDState} (h : st.enabled = false) :
    (∀ (job : Job) (now : Int), addOp st job now = (st, none)) ∧
    (∀ id : JobId, removeOp st id = (st, none)) ∧
    (∀ (id : JobId) (now : Int),
      forceRunOp st id now = (st, none, some PDErr.disabled)) := by
  refine ⟨?_, ?_, ?_⟩
  · intro job now
    unfold addOp
    rw [h, if_pos (by rfl)]
  · intro id
    unfold removeOp removeLockedOp
    rw [h, if_pos (by rfl)]
  · intro id now
    unfold forceRunOp
    rw [h, if_pos (by rfl)]

theorem c5_witness :
    initState.enabled = false ∧
    ((∀ (job : Job) (now : Int), addOp initState job now = (initState, none)) ∧
     (∀ id : JobId, removeOp initState id = (initState, none)) ∧
     (∀ (id : JobId) (now : Int),
       forceRunOp initState id now = (initState, none, some PDErr.disabled))) :=
  ⟨rfl, c5_disabled_noop rfl⟩

/-- C6: successful derivation produces a copy whose parent ID is the
template's ID, whose ID and name are the deterministic encoding of the
template ID and the launch instant in integer Unix seconds, whose
periodic configuration is cleared and whose GC flag is set. -/
theorem c6_derive_fields {st : PDState} {pj : Job} (t : Int)
    (h : pj.copyFails = false) :
    ∃ d : Job, deriveJobOp st pj t = (st, some d, none) ∧
      d.parentID = pj.id ∧
      d.id = derivedJobID pj t ∧
      d.name = derivedJobID pj t ∧
      d.periodic = none ∧
      d.gc = true ∧
      derivedJobID pj t = pj.id ++ jobLaunchSuffix ++ intChars t := by
  have heq : deriveJobOp st pj t =
      (st,
       some { pj with
                parentID := pj.id,
                id := derivedJobID pj t,
                name := derivedJobID pj t,
                periodic := none,
                gc := true },
       none) := by
    unfold deriveJobOp
    rw [if_neg (by rw [h]; exact Bool.false_ne_true)]
  exact ⟨_, heq, rfl, rfl, rfl, rfl, rfl, rfl⟩

theorem c6_witness :
    sampleJob.copyFails = false ∧
    ∃ d : Job, deriveJobOp initState sampleJob 5 = (initState, some d, none) ∧
      d.parentID = sampleJob.id ∧
      d.id = derivedJobID sampleJob 5 ∧
      d.name = derivedJobID sampleJob 5 ∧
      d.periodic = none ∧
      d.gc = true ∧
      derivedJobID sampleJob 5 =
        sampleJob.id ++ jobLaunchSuffix ++ intChars 5 :=
  ⟨rfl, c6_derive_fields 5 rfl⟩

/-- Sample periodic job whose deep copy faults, used by concrete
witnesses. -/
def faultJob : Job :=
  { id := ['f'], name := ['f'], parentID := [],
    periodic := some { enabled := true, next := fun _ => none },
    gc := false, copyFails := true }

/-- Sample reachable state tracking `faultJob`. -/
def faultState : PDState :=
  (addOp (setEnabledOp initState true) faultJob 0).1

theorem faultState_reach : Reach faultState :=
  Reach.add _ faultJob 0 (Reach.setEnabled _ true Reach.init)

/-- C7: when the deep copy of a tracked job faults, deriveJob returns no
derived job and a derivation-failure error, the job is deregistered from
both the registry (so it no longer appears in Tracked()) and the heap,
and every other tracked job is untouched. -/
theorem c7_derivation_fault {st : PDState} {pj : Job} (t : Int)
    (hre : Reach st) (hen : st.enabled = true) (hcf : pj.copyFails = true)
    (htr : (mlookup st.tracked pj.id).isSome = true) :
    (deriveJobOp st pj t).2.1 = none ∧
    (deriveJobOp st pj t).2.2 = some PDErr.derivationFailure ∧
    mlookup ((deriveJobOp st pj t).1).tracked pj.id = none ∧
    (∀ j ∈ trackedFn (deriveJobOp st pj t).1, j.id ≠ pj.id) ∧
    pj.id ∉ hIds ((deriveJobOp st pj t).1).heap ∧
    (∀ id, id ≠ pj.id →
      mlookup ((deriveJobOp st pj t).1).tracked id = mlookup st.tracked id) ∧
    (∀ id, id ≠ pj.id →
      (id ∈ hIds ((deriveJobOp st pj t).1).heap ↔ id ∈ hIds st.heap)) := by
  have hwf := reach_wf hre
  obtain ⟨job, hjob⟩ := Option.isSome_iff_exists.mp htr
  have hjid : job.id = pj.id := hwf.bindOk pj.id job hjob
  have hmem : pj.id ∈ hIds st.heap := (hwf.keysIff pj.id).mp htr
  unfold deriveJobOp
  rw [if_pos hcf]
  unfold removeOp removeLockedOp
  rw [hen, if_neg (by decide), hjob]
  dsimp only
  cases hro : heapRemoveOp st.heap job with
  | none =>
    exfalso
    unfold heapRemoveOp at hro
    cases hf : hFind st.heap job.id with
    | some i =>
      rw [hf] at hro
      cases hro
    | none =>
      obtain ⟨e, he, heid⟩ := List.mem_map.mp hmem
      exact (hFind_none_iff.mp hf e he) (hjid ▸ heid)
  | some h2 =>
    dsimp only
    obtain ⟨hv2, hnd2, hmem2, _⟩ := heapRemove_wf hwf.valid hwf.idsNodup hro
    obtain ⟨hdnd, hdmem⟩ := mkeys_mdelete st.tracked pj.id hwf.keysNodup
    refine ⟨rfl, rfl, mlookup_mdelete_self pj.id hwf.keysNodup, ?_, ?_, ?_,
      ?_⟩
    · intro j hj
      obtain ⟨kv, hkv, hkvj⟩ := List.mem_map.mp hj
      obtain ⟨k, v⟩ := kv
      have hkmem : k ∈ mkeys (mdelete st.tracked pj.id) :=
        List.mem_map.mpr ⟨(k, v), hkv, rfl⟩
      obtain ⟨hkold, hkne⟩ := (hdmem k).mp hkmem
      have hlkv : mlookup (mdelete st.tracked pj.id) k = some v :=
        mlookup_of_mem hdnd hkv
      rw [mlookup_mdelete_ne st.tracked hkne] at hlkv
      have := hwf.bindOk k v hlkv
      rw [← hkvj]
      dsimp only
      rw [this]
      exact hkne
    · intro hc
      exact ((hmem2 pj.id).mp hc).2 hjid.symm
    · intro id hid
      exact mlookup_mdelete_ne st.tracked hid
    · intro id hid
      rw [hmem2 id, hjid]
      constructor
      · intro hh
        exact hh.1
      · intro hh
        exact ⟨hh, hid⟩

theorem c7_witness :
    faultState.enabled = true ∧ faultJob.copyFails = true ∧
    (mlookup faultState.tracked faultJob.id).isSome = true ∧
    ((deriveJobOp faultState faultJob 7).2.1 = none ∧
     (deriveJobOp faultState faultJob 7).2.2 =
       some PDErr.derivationFailure ∧
     mlookup ((deriveJobOp faultState faultJob 7).1).tracked faultJob.id =
       none ∧
     (∀ j ∈ trackedFn (deriveJobOp faultState faultJob 7).1,
       j.id ≠ faultJob.id) ∧
     faultJob.id ∉ hIds ((deriveJobOp faultState faultJob 7).1).heap ∧
     (∀ id, id ≠ faultJob.id →
       mlookup ((deriveJobOp faultState faultJob 7).1).tracked id =
         mlookup faultState.tracked id) ∧
     (∀ id, id ≠ faultJob.id →
       (id ∈ hIds ((deriveJobOp faultState faultJob 7).1).heap ↔
         id ∈ hIds faultState.heap))) :=
  ⟨rfl, rfl, rfl,
    c7_derivation_fault 7 faultState_reach rfl rfl rfl⟩

/-- C8 counterexample: on an enabled dispatcher with no tracked jobs,
Remove of an unknown ID returns no error at all (a silent no-op), not a
NotTracked error. -/
theorem c8_counterexample :
    (setEnabledOp initState true).enabled = true ∧
    mlookup (setEnabledOp initState true).tracked ['x'] = none ∧
    removeOp (setEnabledOp initState true) ['x'] =
      (setEnabledOp initState true, none) :=
  ⟨rfl, rfl, rfl⟩

/-- C8 (amended): Remove of an untracked ID on an enabled dispatcher is
a silent no-op returning no error. -/
theorem c8_remove_untracked_noop {st : PDState} {id : JobId}
    (hen : st.enabled = true) (hun : mlookup st.tracked id = none) :
    removeOp st id = (st, none) := by
  unfold removeOp removeLockedOp
  rw [hen, if_neg (by decide), hun]

theorem c8_witness :
    (setEnabledOp initState true).enabled = true ∧
    mlookup (setEnabledOp initState true).tracked ['y'] = none ∧
    removeOp (setEnabledOp initState true) ['y'] =
      (setEnabledOp initState true, none) :=
  ⟨rfl, rfl, c8_remove_untracked_noop rfl rfl⟩

/-- C9: in every reachable state, Add never surfaces a heap failure: the
duplicate-key branch of Push (and the missing-key branch of Update) is
unreachable, so Add returns no error. -/
theorem c9_add_never_fails {st : PDState} (h : Reach st)
    (job : Job) (now : Int) : (addOp st job now).2 = none := by
  have hwf := reach_wf h
  unfold addOp
  cases hen : st.enabled with
  | false =>
    rw [if_pos (by rfl)]
  | true =>
    rw [if_neg (by decide)]
    by_cases hdis : (!(jobIsPeriodic job) || !(jobPeriodicEnabled job)) = true
    · rw [if_pos hdis]
      by_cases htr : (mlookup st.tracked job.id).isSome = true
      · rw [if_pos htr]
      · rw [if_neg htr]
    · rw [if_neg hdis]
      by_cases htr : (mlookup st.tracked job.id).isSome = true
      · rw [if_pos htr]
        have hmem : job.id ∈ hIds st.heap := (hwf.keysIff job.id).mp htr
        cases hup : heapUpdateOp st.heap job (resolveNext job now) with
        | none =>
          exfalso
          unfold heapUpdateOp at hup
          cases hf : hFind st.heap job.id with
          | some i =>
            rw [hf] at hup
            cases hup
          | none =>
            obtain ⟨e, he, heid⟩ := List.mem_map.mp hmem
            exact (hFind_none_iff.mp hf e he) heid
        | some h2 =>
          dsimp only
      · rw [if_neg htr]
        have hnmem : job.id ∉ hIds st.heap := by
          intro hc
          exact htr ((hwf.keysIff job.id).mpr hc)
        cases hpu : heapPushOp st.heap job (resolveNext job now) with
        | none =>
          exfalso
          unfold heapPushOp at hpu
          cases hf : hFind st.heap job.id with
          | some i =>
            exact hnmem (hFind_isSome_iff.mp (by rw [hf]; rfl))
          | none =>
            rw [hf] at hpu
            cases hpu
        | some h2 =>
          dsimp only

theorem c9_witness : (addOp initState sampleJob 0).2 = none :=
  c9_add_never_fails Reach.init sampleJob 0

/-- C4: in every reachable state with a non-empty heap, Peek returns
the root entry, which no entry of the heap is Less than; moreover Less
orders concrete instants ascending, puts every undetermined instant
after every concrete one, and leaves two undetermined instants mutually
unordered. -/
theorem c4_peek_min {st : PDState} (h : Reach st) (hne : st.heap ≠ []) :
    (heapPeekOp st.heap = some (gAt st.heap 0) ∧
      ∀ e ∈ st.heap, less e (gAt st.heap 0) = false) ∧
    (∀ (a b : PJob) (x y : Int), a.next = some x → b.next = some y →
      (less a b = true ↔ x < y)) ∧
    (∀ (a b : PJob) (x : Int), a.next = some x → b.next = none →
      less a b = true) ∧
    (∀ a b : PJob, a.next = none → b.next = none →
      less a b = false ∧ less b a = false) := by
  have hwf := reach_wf h
  have hlen : ¬ st.heap.length = 0 := fun hc => hne (List.length_eq_zero.mp hc)
  refine ⟨⟨?_, ?_⟩, ?_, ?_, ?_⟩
  · unfold heapPeekOp
    rw [if_neg hlen]
  · intro e he
    obtain ⟨k, hk, hek⟩ := List.mem_iff_getElem.mp he
    rw [not_less_iff_rnk, ← hek, ← gAt_eq_getElem hk]
    exact validN_min hwf.valid k hk
  · intro a b x y ha hb
    simp [less, ha, hb]
  · intro a b x ha hb
    simp [less, ha, hb]
  · intro a b ha hb
    simp [less, ha, hb]

theorem c4_witness :
    Reach sampleState ∧ sampleState.heap ≠ [] ∧
    ((heapPeekOp sampleState.heap = some (gAt sampleState.heap 0) ∧
      ∀ e ∈ sampleState.heap, less e (gAt sampleState.heap 0) = false) ∧
    (∀ (a b : PJob) (x y : Int), a.next = some x → b.next = some y →
      (less a b = true ↔ x < y)) ∧
    (∀ (a b : PJob) (x : Int), a.next = some x → b.next = none →
      less a b = true) ∧
    (∀ a b : PJob, a.next = none → b.next = none →
      less a b = false ∧ less b a = false)) := by
  have hne : sampleState.heap ≠ [] := by
    intro hc
    have hlen : sampleState.heap.length = 1 := rfl
    rw [hc] at hlen
    cases hlen
  exact ⟨sampleState_reach, hne, c4_peek_min sampleState_reach hne⟩

/-- Number of heap entries whose next instant equals `lt`. -/
def countEq (l : List PJob) (lt : GoTime) : Nat :=
  (l.filter (fun e => e.next = lt)).length

/-- The environment condition on the scheduling-rule resolver: at
reference instant `now` it yields the undetermined marker or a strictly
later instant. -/
def freshAt (now : Int) (e : PJob) : Prop :=
  resolveNext e.job now = none ∨
    ∃ v : Int, resolveNext e.job now = some v ∧ now < v

theorem fresh_rnk {now L : Int} {e : PJob} (hf : freshAt now e)
    (hL : L ≤ now) :
    resolveNext e.job now ≠ some L ∧
    (L : WithTop Int) ≤ rnk (PJob.mk e.job (resolveNext e.job now)) := by
  rcases hf with hf | ⟨v, hv, hnv⟩
  · constructor
    · rw [hf]
      intro hc
      cases hc
    · rw [show rnk (PJob.mk e.job (resolveNext e.job now)) = ⊤ by
        simp [rnk, hf]]
      exact le_top
  · constructor
    · rw [hv]
      intro hc
      have := Option.some.inj hc
      omega
    · rw [show rnk (PJob.mk e.job (resolveNext e.job now)) =
        (v : WithTop Int) by simp [rnk, hv]]
      exact_mod_cast le_of_lt (lt_of_le_of_lt hL hnv)

theorem cons_head_gAt {l : List PJob} (h : l ≠ []) :
    l = gAt l 0 :: l.tail := by
  cases l with
  | nil => exact absurd rfl h
  | cons a t => simp [gAt]

theorem heapUpdateOp_peek {l : List PJob} (h : l ≠ []) (nx : GoTime) :
    heapUpdateOp l (gAt l 0).job nx =
      some (heapFix (l.set 0 (PJob.mk (gAt l 0).job nx)) 0) := by
  unfold heapUpdateOp
  rw [hFind_zero h]

theorem countEq_perm {l l2 : List PJob} (h : l.Perm l2) (lt : GoTime) :
    countEq l lt = countEq l2 lt :=
  (List.Perm.filter _ h).length_eq

theorem no_head_eqL {l : List PJob} {L : Int} (hv : HeapValid l)
    (hge : ∀ e ∈ l, (L : WithTop Int) ≤ rnk e) (hne : l ≠ [])
    (hj : ¬ (gAt l 0).next = some L) :
    ∀ e ∈ l, ¬ e.next = some L := by
  intro e he hc
  have hl0 : 0 < l.length := by
    cases l with
    | nil => exact absurd rfl hne
    | cons a t => exact Nat.succ_pos _
  obtain ⟨k, hk, hek⟩ := List.mem_iff_getElem.mp he
  have hmin := validN_min hv k hk
  rw [← gAt_eq_getElem hk] at hek
  rw [hek] at hmin
  have h1 : rnk e = (L : WithTop Int) := (rnk_eq_coe_iff e L).mpr hc
  rw [h1] at hmin
  have h2 : (L : WithTop Int) ≤ rnk (gAt l 0) := by
    refine hge (gAt l 0) ?_
    rw [gAt_eq_getElem hl0]
    exact List.getElem_mem hl0
  exact hj ((rnk_eq_coe_iff _ L).mp (le_antisymm hmin h2))

/-- Full behaviour of a dispatch pass under the run-loop preconditions:
the heap is heap-ordered, the target instant is a lower bound of all
entries and not after `now`, and the resolver yields only undetermined
or strictly-later-than-`now` instants.  The pass then finishes, hands
off exactly the entries due at the target instant, and rewrites exactly
those entries to the resolver's result, in some order. -/
theorem dispatchAux_spec :
    ∀ (fuel : Nat) (l : List PJob) (L now : Int),
      HeapValid l →
      (∀ e ∈ l, (L : WithTop Int) ≤ rnk e) →
      (∀ e ∈ l, freshAt now e) →
      L ≤ now →
      countEq l (some L) < fuel →
      (dispatchAux fuel l (some L) now).2.2 = true ∧
      ((dispatchAux fuel l (some L) now).2.1).Perm
        ((l.filter (fun e => e.next = some L)).map
          (fun e => (e.job, (some L : GoTime)))) ∧
      ((dispatchAux fuel l (some L) now).1).Perm
        (l.map (fun e => if e.next = some L
          then PJob.mk e.job (resolveNext e.job now) else e)) := by
  intro fuel
  induction fuel with
  | zero =>
    intro l L now _ _ _ _ hfuel
    omega
  | succ fuel ih =>
    intro l L now hv hge hfresh hLn hfuel
    unfold dispatchAux
    by_cases hlen : l.length = 0
    · rw [if_pos hlen]
      have hnil : l = [] := List.length_eq_zero.mp hlen
      subst hnil
      exact ⟨rfl, List.Perm.refl _, List.Perm.refl _⟩
    · rw [if_neg hlen]
      have hne : l ≠ [] := fun hc => hlen (by rw [hc]; rfl)
      by_cases hj : (gAt l 0).next = some L
      · rw [if_neg (not_not_intro hj)]
        have hl0 : 0 < l.length := by omega
        have hjmem : gAt l 0 ∈ l := by
          rw [gAt_eq_getElem hl0]
          exact List.getElem_mem hl0
        rw [heapUpdateOp_peek hne]
        dsimp only
        set newj := PJob.mk (gAt l 0).job
          (resolveNext (gAt l 0).job now) with hnewj
        obtain ⟨hnotL, hrnkge⟩ := fresh_rnk (hfresh _ hjmem) hLn
        have hnewjne : newj.next ≠ some L := hnotL
        set l2 := heapFix (l.set 0 newj) 0 with hl2
        have hv2 : HeapValid l2 := by
          rw [HeapValid, hl2, heapFix_length, List.length_set]
          exact heapFix_validN hv hl0 newj
        have hperm2 : l2.Perm (newj :: l.tail) := by
          rw [hl2]
          have hfp := heapFix_perm (l.set 0 newj) 0
          have hset : l.set 0 newj = newj :: l.tail := by
            conv_lhs => rw [cons_head_gAt hne]
            rfl
          rw [← hset]
          exact hfp
        have htail_sub : ∀ e ∈ l.tail, e ∈ l := by
          intro e he
          rw [cons_head_gAt hne]
          exact List.mem_cons_of_mem _ he
        have hge2 : ∀ e ∈ l2, (L : WithTop Int) ≤ rnk e := by
          intro e he
          rcases List.mem_cons.mp ((List.Perm.mem_iff hperm2).mp he) with
            he2 | he2
          · rw [he2]
            exact hrnkge
          · exact hge e (htail_sub e he2)
        have hfresh2 : ∀ e ∈ l2, freshAt now e := by
          intro e he
          rcases List.mem_cons.mp ((List.Perm.mem_iff hperm2).mp he) with
            he2 | he2
          · rw [he2]
            have hf0 := hfresh (gAt l 0) hjmem
            exact hf0
          · exact hfresh e (htail_sub e he2)
        have hca : countEq (newj :: l.tail) (some L) =
            countEq l.tail (some L) := by
          unfold countEq
          rw [List.filter_cons, if_neg (by simp [hnewjne])]
        have hcb : countEq l (some L) = countEq l.tail (some L) + 1 := by
          conv_lhs => rw [cons_head_gAt hne]
          unfold countEq
          rw [List.filter_cons, if_pos (by simp [hj]), List.length_cons]
        have hcount : countEq l2 (some L) < fuel := by
          rw [countEq_perm hperm2, hca]
          omega
        obtain ⟨ihc, ihout, ihheap⟩ := ih l2 L now hv2 hge2 hfresh2 hLn hcount
        refine ⟨ihc, ?_, ?_⟩
        · have hfiltl : l.filter (fun e => e.next = some L) =
              gAt l 0 :: l.tail.filter (fun e => e.next = some L) := by
            conv_lhs => rw [cons_head_gAt hne]
            rw [List.filter_cons, if_pos (by simp [hj])]
          have hfilt2 : (l2.filter (fun e => e.next = some L)).Perm
              (l.tail.filter (fun e => e.next = some L)) := by
            have hpf := List.Perm.filter (fun e => e.next = some L) hperm2
            rw [List.filter_cons, if_neg (by simp [hnewjne])] at hpf
            exact hpf
          rw [hfiltl, List.map_cons]
          exact (ihout.trans (List.Perm.map _ hfilt2)).cons _
        · have hmapl : l.map (fun e => if e.next = some L
              then PJob.mk e.job (resolveNext e.job now) else e) =
              newj :: l.tail.map (fun e => if e.next = some L
                then PJob.mk e.job (resolveNext e.job now) else e) := by
            conv_lhs => rw [cons_head_gAt hne]
            rw [List.map_cons, if_pos hj]
          have hmap2 : (l2.map (fun e => if e.next = some L
              then PJob.mk e.job (resolveNext e.job now) else e)).Perm
              (newj :: l.tail.map (fun e => if e.next = some L
                then PJob.mk e.job (resolveNext e.job now) else e)) := by
            have hpm := List.Perm.map (fun e => if e.next = some L
              then PJob.mk e.job (resolveNext e.job now) else e) hperm2
            rw [List.map_cons, if_neg hnewjne] at hpm
            exact hpm
          rw [hmapl]
          exact ihheap.trans hmap2
      · rw [if_pos hj]
        have hnone := no_head_eqL hv hge hne hj
        refine ⟨rfl, ?_, ?_⟩
        · have hfilt : l.filter (fun e => e.next = some L) = [] := by
            rw [List.filter_eq_nil_iff]
            intro e he hc
            exact hnone e he (by simpa using hc)
          rw [hfilt]
          exact List.Perm.refl _
        · have hmap : l.map (fun e => if e.next = some L
              then PJob.mk e.job (resolveNext e.job now) else e) = l := by
            have hcong : ∀ e ∈ l, (if e.next = some L
                then PJob.mk e.job (resolveNext e.job now) else e) = e := by
              intro e he
              exact if_neg (hnone e he)
            calc l.map (fun e => if e.next = some L
                then PJob.mk e.job (resolveNext e.job now) else e)
                = l.map id := List.map_congr_left hcong
              _ = l := List.map_id l
          rw [hmap]

instance heapValid_dec (l : List PJob) : Decidable (HeapValid l) := by
  unfold HeapValid
  infer_instance

/-- Termination of a dispatch pass needs only the resolver condition:
each iteration strictly decreases the number of entries due at the
target instant. -/
theorem dispatchAux_term :
    ∀ (fuel : Nat) (l : List PJob) (L now : Int),
      (∀ e ∈ l, freshAt now e) → L ≤ now →
      countEq l (some L) < fuel →
      (dispatchAux fuel l (some L) now).2.2 = true := by
  intro fuel
  induction fuel with
  | zero =>
    intro l L now _ _ hfuel
    omega
  | succ fuel ih =>
    intro l L now hfresh hLn hfuel
    unfold dispatchAux
    by_cases hlen : l.length = 0
    · rw [if_pos hlen]
    · rw [if_neg hlen]
      have hne : l ≠ [] := fun hc => hlen (by rw [hc]; rfl)
      by_cases hj : (gAt l 0).next = some L
      · rw [if_neg (not_not_intro hj)]
        have hl0 : 0 < l.length := by omega
        have hjmem : gAt l 0 ∈ l := by
          rw [gAt_eq_getElem hl0]
          exact List.getElem_mem hl0
        rw [heapUpdateOp_peek hne]
        dsimp only
        set newj := PJob.mk (gAt l 0).job
          (resolveNext (gAt l 0).job now) with hnewj
        obtain ⟨hnotL, _⟩ := fresh_rnk (hfresh _ hjmem) hLn
        have hperm2 : (heapFix (l.set 0 newj) 0).Perm (newj :: l.tail) := by
          have hfp := heapFix_perm (l.set 0 newj) 0
          have hset : l.set 0 newj = newj :: l.tail := by
            conv_lhs => rw [cons_head_gAt hne]
            rfl
          rw [← hset]
          exact hfp
        have htail_sub : ∀ e ∈ l.tail, e ∈ l := by
          intro e he
          rw [cons_head_gAt hne]
          exact List.mem_cons_of_mem _ he
        have hfresh2 : ∀ e ∈ heapFix (l.set 0 newj) 0, freshAt now e := by
          intro e he
          rcases List.mem_cons.mp ((List.Perm.mem_iff hperm2).mp he) with
            he2 | he2
          · rw [he2]
            have hf0 := hfresh (gAt l 0) hjmem
            exact hf0
          · exact hfresh e (htail_sub e he2)
        have hca : countEq (newj :: l.tail) (some L) =
            countEq l.tail (some L) := by
          unfold countEq
          rw [List.filter_cons, if_neg (by simp [hnotL])]
        have hcb : countEq l (some L) = countEq l.tail (some L) + 1 := by
          conv_lhs => rw [cons_head_gAt hne]
          unfold countEq
          rw [List.filter_cons, if_pos (by simp [hj]), List.length_cons]
        exact ih _ L now hfresh2 hLn (by rw [countEq_perm hperm2, hca]; omega)
      · rw [if_pos hj]

/-- C10: under the precondition that the resolver at `now` yields only
the undetermined marker or instants strictly later than `now` for every
tracked entry, and that the target launch instant is not after `now`, a
dispatch pass with fuel one more than the heap size reaches a return
branch: the loop cannot spin. -/
theorem c10_dispatch_terminates {st : PDState} {L now : Int}
    (hfresh : ∀ e ∈ st.heap, freshAt now e) (hLn : L ≤ now) :
    (dispatchOp st (st.heap.length + 1) (some L) now).2.2 = true := by
  unfold dispatchOp
  refine dispatchAux_term _ _ _ _ hfresh hLn ?_
  have hle := List.length_filter_le (fun e => decide (e.next = some L))
    st.heap
  unfold countEq
  omega

theorem c10_witness :
    (∀ e ∈ sampleState.heap, freshAt 60 e) ∧ (0 : Int) ≤ 60 ∧
    (dispatchOp sampleState (sampleState.heap.length + 1) (some 0) 60).2.2 =
      true := by
  have hfresh : ∀ e ∈ sampleState.heap, freshAt 60 e := by
    intro e he
    rw [show sampleState.heap = [PJob.mk sampleJob (some 60)] from rfl] at he
    rcases List.mem_singleton.mp he with rfl
    exact Or.inr ⟨120, rfl, by omega⟩
  exact ⟨hfresh, by omega, c10_dispatch_terminates hfresh (by omega)⟩

/-- Sample jobs and state for the C2 counterexample and witness. -/
def jA : Job :=
  { id := ['A'], name := ['A'], parentID := [],
    periodic := some { enabled := true, next := fun now => some (now + 1) },
    gc := false, copyFails := false }

/-- Second sample job. -/
def jB : Job :=
  { id := ['B'], name := ['B'], parentID := [],
    periodic := some { enabled := true, next := fun now => some (now + 1) },
    gc := false, copyFails := false }

/-- A heap-ordered state with two entries due at instants 1 and 2. -/
def cexState : PDState :=
  { enabled := true, running := true,
    tracked := [(['A'], jA), (['B'], jB)],
    heap := [PJob.mk jA (some 1), PJob.mk jB (some 2)] }

/-- C2 counterexample: on the heap-ordered state `cexState`, the pass
`dispatch(2, 0)` stops at the minimum (due at 1) and hands off nothing,
although the entry for `jB` has next instant exactly 2 — so a dispatch
pass does not, for every heap state and instant pair, hand off exactly
the entries whose next instant equals the target. -/
theorem c2_counterexample :
    HeapValid cexState.heap ∧
    PJob.mk jB (some 2) ∈ cexState.heap ∧
    (PJob.mk jB (some 2)).next = some 2 ∧
    (dispatchOp cexState 3 (some 2) 0).2.1 = [] ∧
    (dispatchOp cexState 3 (some 2) 0).1.heap = cexState.heap ∧
    (dispatchOp cexState 3 (some 2) 0).2.2 = true :=
  ⟨by decide, List.mem_cons_of_mem _ (List.mem_cons_self _ _), rfl, rfl,
    rfl, rfl⟩

/-- C2 (amended): provided the heap is heap-ordered, the target launch
instant is a lower bound of every entry's next instant and not after
`now`, and the resolver at `now` yields only undetermined or
strictly-later-than-`now` instants, a dispatch pass with fuel one more
than the heap size finishes, hands the derivation/submission path
exactly the entries whose next instant equals the target (each paired
with the target instant), rewrites exactly those entries' next instants
to the resolver's result at `now`, leaves all other entries unchanged,
and removes nothing from the registry or the heap. -/
theorem c2_dispatch_exact {st : PDState} {L now : Int}
    (hv : HeapValid st.heap)
    (hge : ∀ e ∈ st.heap, (L : WithTop Int) ≤ rnk e)
    (hfresh : ∀ e ∈ st.heap, freshAt now e)
    (hLn : L ≤ now) :
    (dispatchOp st (st.heap.length + 1) (some L) now).2.2 = true ∧
    ((dispatchOp st (st.heap.length + 1) (some L) now).2.1).Perm
      ((st.heap.filter (fun e => e.next = some L)).map
        (fun e => (e.job, (some L : GoTime)))) ∧
    ((dispatchOp st (st.heap.length + 1) (some L) now).1).heap.Perm
      (st.heap.map (fun e => if e.next = some L
        then PJob.mk e.job (resolveNext e.job now) else e)) ∧
    ((dispatchOp st (st.heap.length + 1) (some L) now).1).tracked =
      st.tracked ∧
    ((dispatchOp st (st.heap.length + 1) (some L) now).1).heap.length =
      st.heap.length := by
  have hfuel : countEq st.heap (some L) < st.heap.length + 1 := by
    have hle := List.length_filter_le (fun e => decide (e.next = some L))
      st.heap
    unfold countEq
    omega
  obtain ⟨h1, h2, h3⟩ :=
    dispatchAux_spec (st.heap.length + 1) st.heap L now hv hge hfresh hLn
      hfuel
  refine ⟨h1, h2, h3, rfl, ?_⟩
  rw [show ((dispatchOp st (st.heap.length + 1) (some L) now).1).heap =
    (dispatchAux (st.heap.length + 1) st.heap (some L) now).1 from rfl]
  rw [h3.length_eq, List.length_map]

/-- A heap-ordered state with entries due at instants 5 and 7. -/
def c2wState : PDState :=
  { enabled := true, running := true,
    tracked := [(['A'], jA), (['B'], jB)],
    heap := [PJob.mk jA (some 5), PJob.mk jB (some 7)] }

theorem c2_witness :
    HeapValid c2wState.heap ∧
    (∀ e ∈ c2wState.heap, ((5 : Int) : WithTop Int) ≤ rnk e) ∧
    (∀ e ∈ c2wState.heap, freshAt 6 e) ∧
    (5 : Int) ≤ 6 ∧
    ((dispatchOp c2wState (c2wState.heap.length + 1) (some 5) 6).2.2 =
      true ∧
    ((dispatchOp c2wState (c2wState.heap.length + 1) (some 5) 6).2.1).Perm
      ((c2wState.heap.filter (fun e => e.next = some 5)).map
        (fun e => (e.job, (some 5 : GoTime)))) ∧
    ((dispatchOp c2wState (c2wState.heap.length + 1) (some 5)
      6).1).heap.Perm
      (c2wState.heap.map (fun e => if e.next = some 5
        then PJob.mk e.job (resolveNext e.job 6) else e)) ∧
    ((dispatchOp c2wState (c2wState.heap.length + 1) (some 5)
      6).1).tracked = c2wState.tracked ∧
    ((dispatchOp c2wState (c2wState.heap.length + 1) (some 5)
      6).1).heap.length = c2wState.heap.length) := by
  have hv : HeapValid c2wState.heap := by decide
  have hge : ∀ e ∈ c2wState.heap, ((5 : Int) : WithTop Int) ≤ rnk e := by
    decide
  have hfresh : ∀ e ∈ c2wState.heap, freshAt 6 e := by
    intro e he
    rw [show c2wState.heap =
      [PJob.mk jA (some 5), PJob.mk jB (some 7)] from rfl] at he
    rcases List.mem_cons.mp he with rfl | he2
    · exact Or.inr ⟨7, rfl, by omega⟩
    · rcases List.mem_singleton.mp he2 with rfl
      exact Or.inr ⟨7, rfl, by omega⟩
  exact ⟨hv, hge, hfresh, by omega,
    c2_dispatch_exact hv hge hfresh (by omega)⟩

theorem dchar_isDigit (d : Nat) (h : d < 10) :
    ('0' ≤ dchar d ∧ dchar d ≤ '9' : Bool) = true := by
  interval_cases d <;> decide

theorem dchar_val (d : Nat) (h : d < 10) : (dchar d).toNat - 48 = d := by
  interval_cases d <;> decide

theorem natA_fuel : ∀ n f₁ f₂ acc, n < f₁ → n < f₂ →
    natA f₁ n acc = natA f₂ n acc := by
  intro n
  induction n using Nat.strong_induction_on with
  | _ n ih =>
    intro f₁ f₂ acc h₁ h₂
    obtain ⟨g₁, rfl⟩ : ∃ g, f₁ = g + 1 := ⟨f₁ - 1, by omega⟩
    obtain ⟨g₂, rfl⟩ : ∃ g, f₂ = g + 1 := ⟨f₂ - 1, by omega⟩
    by_cases hn : n < 10
    · simp [natA, hn]
    · have hd : n / 10 < n := Nat.div_lt_self (by omega) (by omega)
      simp only [natA, if_neg hn]
      exact ih (n / 10) hd _ _ _
        (Nat.lt_of_lt_of_le hd (by omega)) (Nat.lt_of_lt_of_le hd (by omega))

theorem natA_acc : ∀ n acc, natA (n + 1) n acc = natChars n ++ acc := by
  intro n
  induction n using Nat.strong_induction_on with
  | _ n ih =>
    intro acc
    by_cases hn : n < 10
    · simp [natA, natChars, hn]
    · have hd : n / 10 < n := Nat.div_lt_self (by omega) (by omega)
      have hstep : ∀ a, natA (n + 1) n a = natA (n / 10 + 1) (n / 10) (dchar (n % 10) :: a) := by
        intro a
        simp only [natA, if_neg hn]
        exact natA_fuel (n / 10) n (n / 10 + 1) _
          (Nat.lt_of_lt_of_le hd (by omega)) (by omega)
      rw [hstep, ih (n / 10) hd]
      conv_rhs => rw [natChars, hstep, ih (n / 10) hd]
      simp

theorem natChars_lt {n : Nat} (h : n < 10) : natChars n = [dchar n] := by
  simp [natChars, natA, h]

theorem natChars_ge {n : Nat} (h : ¬ n < 10) :
    natChars n = natChars (n / 10) ++ [dchar (n % 10)] := by
  have hd : n / 10 < n := Nat.div_lt_self (by omega) (by omega)
  rw [natChars]
  show natA (n + 1) n [] = _
  simp only [natA, if_neg h]
  rw [natA_fuel (n / 10) n (n / 10 + 1) _
    (Nat.lt_of_lt_of_le hd (by omega)) (by omega), natA_acc]

theorem digitsVal_append_singleton (A : List Char) (c : Char) :
    digitsVal (A ++ [c]) = digitsVal A * 10 + (c.toNat - 48) := by
  simp [digitsVal, List.foldl_append]

theorem natChars_digits : ∀ n, allDigits (natChars n) = true ∧
    digitsVal (natChars n) = n ∧ natChars n ≠ [] := by
  intro n
  induction n using Nat.strong_induction_on with
  | _ n ih =>
    by_cases hn : n < 10
    · refine ⟨?_, ?_, by simp [natChars_lt hn]⟩
      · rw [natChars_lt hn, allDigits]
        simp only [List.all_cons, List.all_nil, Bool.and_true]
        exact dchar_isDigit n hn
      · simp [natChars_lt hn, digitsVal, dchar_val n hn]
    · have hd : n / 10 < n := Nat.div_lt_self (by omega) (by omega)
      obtain ⟨hall, hval, hne⟩ := ih (n / 10) hd
      have hm : n % 10 < 10 := Nat.mod_lt _ (by omega)
      refine ⟨?_, ?_, by simp [natChars_ge hn]⟩
      · rw [natChars_ge hn, allDigits, List.all_append, Bool.and_eq_true]
        refine ⟨hall, ?_⟩
        simp only [List.all_cons, List.all_nil, Bool.and_true]
        exact dchar_isDigit _ hm
      · rw [natChars_ge hn, digitsVal_append_singleton, hval, dchar_val _ hm]
        omega

theorem allDigits_mem {s : List Char} (h : allDigits s = true) {c : Char}
    (hc : c ∈ s) : '0' ≤ c ∧ c ≤ '9' := by
  rw [allDigits, List.all_eq_true] at h
  exact of_decide_eq_true (h c hc)

theorem digit_ne_slash {c : Char} (h : '0' ≤ c ∧ c ≤ '9') : c ≠ '/' := by
  intro heq
  subst heq
  exact absurd h.1 (by decide)

theorem intChars_no_slash (t : Int) {c : Char} (hc : c ∈ intChars t) :
    c ≠ '/' := by
  cases t with
  | ofNat n =>
    exact digit_ne_slash (allDigits_mem (natChars_digits n).1 hc)
  | negSucc m =>
    rcases List.mem_cons.mp hc with h | h
    · subst h; decide
    · exact digit_ne_slash (allDigits_mem (natChars_digits (m + 1)).1 h)

theorem atoi_digits {s : List Char} (hne : s ≠ []) (hall : allDigits s = true) :
    atoi s = some ((digitsVal s : Nat) : Int) := by
  match s with
  | c :: rest =>
    have hc : '0' ≤ c ∧ c ≤ '9' := allDigits_mem hall (List.mem_cons_self c rest)
    have hcm : c ≠ '-' := by
      intro heq; subst heq; exact absurd hc.1 (by decide)
    have hcp : c ≠ '+' := by
      intro heq; subst heq; exact absurd hc.1 (by decide)
    rw [atoi, if_neg hcm, if_neg hcp, if_pos hall]

theorem atoi_intChars (t : Int) : atoi (intChars t) = some t := by
  cases t with
  | ofNat n =>
    obtain ⟨hall, hval, hne⟩ := natChars_digits n
    rw [intChars, atoi_digits hne hall, hval]
    rfl
  | negSucc m =>
    obtain ⟨hall, hval, hne⟩ := natChars_digits (m + 1)
    rw [intChars]
    show atoi ('-' :: natChars (m + 1)) = _
    rw [atoi, if_pos rfl, if_pos ⟨hne, hall⟩, hval]
    congr 1

theorem leads_append : ∀ pat rest : List Char, leads pat (pat ++ rest) = true := by
  intro pat rest
  induction pat with
  | nil => rfl
  | cons a as ih => simp [leads, ih]

theorem leads_nil_false (p : Char) (ps : List Char) : leads (p :: ps) [] = false := rfl

theorem leads_head {p : Char} {ps s : List Char} (h : leads (p :: ps) s = true) :
    s.head? = some p := by
  match s with
  | [] => exact absurd h (by rw [leads_nil_false]; decide)
  | b :: bs =>
    rw [leads, Bool.and_eq_true, decide_eq_true_eq] at h
    rw [List.head?_cons, h.1]

theorem leads_suffix_false {x : List Char} (h : x.head? ≠ some '/') :
    leads jobLaunchSuffix x = false := by
  by_contra hc
  rw [Bool.not_eq_false] at hc
  exact h (leads_head hc)

theorem lastIdxFrom_spec : ∀ i (s pat : List Char) (k : Nat), k ≤ i →
    leads pat (s.drop k) = true →
    (∀ j, k < j → j ≤ i → leads pat (s.drop j) = false) →
    lastIdxFrom i s pat = some k := by
  intro i
  induction i with
  | zero =>
    intro s pat k hk hl _
    have : k = 0 := Nat.le_zero.mp hk
    subst this
    rw [List.drop_zero] at hl
    rw [lastIdxFrom, if_pos hl]
  | succ i ih =>
    intro s pat k hk hl hno
    by_cases hki : k = i + 1
    · subst hki
      rw [lastIdxFrom, if_pos hl]
    · have hki' : k ≤ i := by omega
      have hfail : leads pat (s.drop (i + 1)) = false := hno (i + 1) (by omega) le_rfl
      rw [lastIdxFrom, if_neg (by rw [hfail]; decide)]
      exact ih s pat k hki' hl (fun j hj1 hj2 => hno j hj1 (by omega))

theorem suffixNum_head_ne (t : Int) (m : Nat) (hm : 1 ≤ m) :
    ((jobLaunchSuffix ++ intChars t).drop m).head? ≠ some '/' := by
  have h10 : jobLaunchSuffix.length = 10 := rfl
  rw [List.head?_drop, List.getElem?_append]
  by_cases hlt : m < jobLaunchSuffix.length
  · rw [if_pos hlt]
    rw [h10] at hlt
    interval_cases m <;> decide
  · rw [if_neg hlt]
    cases h : (intChars t)[m - jobLaunchSuffix.length]? with
    | none => simp
    | some c =>
      intro heq
      have hc : c = '/' := by injection heq
      exact intChars_no_slash t (List.getElem?_mem h) hc

/-- C3: for every job and every second-resolution instant `t`, decoding
the derived job ID produced for that job and `t` with `LaunchTime`
yields exactly `t` and no error, even when the parent ID itself
contains the launch suffix. -/
theorem c3_launch_roundtrip (j : Job) (t : Int) :
    launchTimeFn (derivedJobID j t) = some t := by
  have h10 : jobLaunchSuffix.length = 10 := rfl
  have hassoc : derivedJobID j t = j.id ++ (jobLaunchSuffix ++ intChars t) := by
    rw [derivedJobID, List.append_assoc]
  have hdropk : (derivedJobID j t).drop j.id.length = jobLaunchSuffix ++ intChars t := by
    rw [hassoc, List.drop_left]
  have hlast : lastIndex (derivedJobID j t) jobLaunchSuffix = some j.id.length := by
    rw [lastIndex]
    apply lastIdxFrom_spec
    · rw [hassoc]
      simp only [List.length_append]
      omega
    · rw [hdropk]
      exact leads_append _ _
    · intro jx hj1 _
      obtain ⟨m, rfl⟩ : ∃ m, jx = j.id.length + m := ⟨jx - j.id.length, by omega⟩
      have hm : 1 ≤ m := by omega
      apply leads_suffix_false
      rw [hassoc, List.drop_append]
      exact suffixNum_head_ne t m hm
  simp only [launchTimeFn, hlast]
  rw [h10, hassoc, List.drop_append, ← h10, List.drop_left]
  exact atoi_intChars t

end PeriodicNomad
